import Mathlib

/-!
Verification of the VNCCS character-studio core: morph-factor computation,
morph-target blending, vertex-bone-weight construction and retargeting,
bone pose/skinning matrices, linear-blend skinning, the CCD IK per-bone
update step, and landmark pose transfer.  Numeric code is embedded over ℚ
(exact arithmetic) where the source is pure array arithmetic, and over ℝ
where the source divides by Euclidean norms or uses trigonometry.
-/

namespace VNCCS

/-! ## Morph factors (`HumanSolver.calculate_factors`, mh_parser.py) -/

/-- Factor table produced by `HumanSolver.calculate_factors`; one field per
dictionary key written by the source. -/
structure MHFactors where
  male : ℚ
  female : ℚ
  old : ℚ
  baby : ℚ
  young : ℚ
  child : ℚ
  maxmuscle : ℚ
  minmuscle : ℚ
  averagemuscle : ℚ
  maxweight : ℚ
  minweight : ℚ
  averageweight : ℚ
  maxheight : ℚ
  minheight : ℚ
  averageheight : ℚ
  african : ℚ
  asian : ℚ
  caucasian : ℚ
  maxcup : ℚ
  mincup : ℚ
  averagecup : ℚ
  maxfirmness : ℚ
  minfirmness : ℚ
  averagefirmness : ℚ
  penis_length_incr : ℚ
  penis_length_decr : ℚ
  penis_testicles_incr : ℚ
  penis_testicles_decr : ℚ
  penis_circ_incr : ℚ
  penis_circ_decr : ℚ
  universal : ℚ

/-- The four age-bucket factors, in the order (old, baby, young, child),
exactly as assigned by the two branches of `calculate_factors`. -/
def ageFactors (age : ℚ) : ℚ × ℚ × ℚ × ℚ :=
  if age < 1/2 then
    let old : ℚ := 0
    let baby : ℚ := max 0 (1 - age * (5333/1000))
    let young : ℚ := max 0 ((age - 3/16) * (16/5))
    let child : ℚ := max 0 (min 1 ((5333/1000) * age) - young)
    (old, baby, young, child)
  else
    let child : ℚ := 0
    let baby : ℚ := 0
    let old : ℚ := max 0 (age * 2 - 1)
    let young : ℚ := 1 - old
    (old, baby, young, child)

/-- `HumanSolver.calculate_factors` (mh_parser.py, lines 176-254), with the
float literals 5.333, 3.2, 0.1875 read as exact rationals. -/
def calculate_factors (age gender weight muscle height breast_size genital_size : ℚ) :
    MHFactors :=
  let ag := ageFactors age
  let maxmuscle := max 0 (muscle * 2 - 1)
  let minmuscle := max 0 (1 - muscle * 2)
  let maxweight := max 0 (weight * 2 - 1)
  let minweight := max 0 (1 - weight * 2)
  let maxheight := max 0 (height * 2 - 1)
  let minheight := max 0 (1 - height * 2)
  let maxcup := max 0 (breast_size * 2 - 1)
  let mincup := max 0 (1 - breast_size * 2)
  let pli := max 0 (genital_size * 2 - 1)
  let pld := max 0 (1 - genital_size * 2)
  { male := gender
    female := 1 - gender
    old := ag.1
    baby := ag.2.1
    young := ag.2.2.1
    child := ag.2.2.2
    maxmuscle := maxmuscle
    minmuscle := minmuscle
    averagemuscle := 1 - (maxmuscle + minmuscle)
    maxweight := maxweight
    minweight := minweight
    averageweight := 1 - (maxweight + minweight)
    maxheight := maxheight
    minheight := minheight
    averageheight := 1 - (maxheight + minheight)
    african := 333/1000
    asian := 333/1000
    caucasian := 334/1000
    maxcup := maxcup
    mincup := mincup
    averagecup := 1 - (maxcup + mincup)
    maxfirmness := 0
    minfirmness := 0
    averagefirmness := 1
    penis_length_incr := pli
    penis_length_decr := pld
    penis_testicles_incr := pli
    penis_testicles_decr := pld
    penis_circ_incr := 0
    penis_circ_decr := 0
    universal := 1 }

/-- The age buckets partition unity on `0 ≤ age`. -/
theorem ageFactors_sum (age : ℚ) (h0 : 0 ≤ age) :
    (ageFactors age).1 + (ageFactors age).2.1 + (ageFactors age).2.2.1 +
      (ageFactors age).2.2.2 = 1 := by
  unfold ageFactors
  by_cases hlt : age < 1/2
  · simp only [if_pos hlt]
    rcases le_or_lt ((age - 3/16) * (16/5)) 0 with hy | hy
    · rw [max_eq_left hy, sub_zero]
      rcases le_or_lt ((5333/1000) * age) 1 with hm | hm
      · have hb : (0:ℚ) ≤ 1 - age * (5333/1000) := by nlinarith
        have hc : (0:ℚ) ≤ (5333/1000) * age := by positivity
        rw [min_eq_right hm, max_eq_right hb, max_eq_right hc]
        ring
      · -- 5.333·age > 1 together with young ≤ 0 is a narrow band:
        -- baby = 0, child = 1.
        have hb : 1 - age * (5333/1000) ≤ 0 := by nlinarith
        rw [min_eq_left hm.le, max_eq_left hb, max_eq_right (zero_le_one)]
        ring
    · rw [max_eq_right hy.le]
      rcases le_or_lt ((5333/1000) * age) 1 with hm | hm
      · have hb : (0:ℚ) ≤ 1 - age * (5333/1000) := by nlinarith
        have hc : (0:ℚ) ≤ (5333/1000) * age - (age - 3/16) * (16/5) := by nlinarith
        rw [min_eq_right hm, max_eq_right hb, max_eq_right hc]
        ring
      · have hb : 1 - age * (5333/1000) ≤ 0 := by nlinarith
        have hc : (0:ℚ) ≤ 1 - (age - 3/16) * (16/5) := by nlinarith
        rw [min_eq_left hm.le, max_eq_left hb, max_eq_right hc]
        ring
  · simp only [if_neg hlt]
    ring

/-- C1: for every slider input in [0,1], `calculate_factors` returns a table
in which each bipolar triple (muscle, weight, height, cup) sums exactly to 1,
`male + female = 1`, and the four age-bucket factors sum exactly to 1
(hence certainly within 1e-6). -/
theorem calculate_factors_partition (age gender weight muscle height bs gs : ℚ)
    (hage : 0 ≤ age ∧ age ≤ 1) (hg : 0 ≤ gender ∧ gender ≤ 1)
    (hw : 0 ≤ weight ∧ weight ≤ 1) (hm : 0 ≤ muscle ∧ muscle ≤ 1)
    (hh : 0 ≤ height ∧ height ≤ 1) (hb : 0 ≤ bs ∧ bs ≤ 1)
    (hgs : 0 ≤ gs ∧ gs ≤ 1) :
    (calculate_factors age gender weight muscle height bs gs).maxmuscle +
      (calculate_factors age gender weight muscle height bs gs).minmuscle +
      (calculate_factors age gender weight muscle height bs gs).averagemuscle = 1 ∧
    (calculate_factors age gender weight muscle height bs gs).maxweight +
      (calculate_factors age gender weight muscle height bs gs).minweight +
      (calculate_factors age gender weight muscle height bs gs).averageweight = 1 ∧
    (calculate_factors age gender weight muscle height bs gs).maxheight +
      (calculate_factors age gender weight muscle height bs gs).minheight +
      (calculate_factors age gender weight muscle height bs gs).averageheight = 1 ∧
    (calculate_factors age gender weight muscle height bs gs).maxcup +
      (calculate_factors age gender weight muscle height bs gs).mincup +
      (calculate_factors age gender weight muscle height bs gs).averagecup = 1 ∧
    (calculate_factors age gender weight muscle height bs gs).male +
      (calculate_factors age gender weight muscle height bs gs).female = 1 ∧
    (calculate_factors age gender weight muscle height bs gs).baby +
      (calculate_factors age gender weight muscle height bs gs).child +
      (calculate_factors age gender weight muscle height bs gs).young +
      (calculate_factors age gender weight muscle height bs gs).old = 1 := by
  refine ⟨by simp [calculate_factors], by simp [calculate_factors],
    by simp [calculate_factors], by simp [calculate_factors],
    by simp [calculate_factors], ?_⟩
  have h := ageFactors_sum age hage.1
  show (ageFactors age).2.1 + (ageFactors age).2.2.2 + (ageFactors age).2.2.1 +
    (ageFactors age).1 = 1
  linarith

/-- Witness for C1 at concrete sliders (all = 1/2). -/
theorem calculate_factors_partition_witness :
    ((0:ℚ) ≤ 1/2 ∧ (1:ℚ)/2 ≤ 1) ∧
    ((calculate_factors (1/2) (1/2) (1/2) (1/2) (1/2) (1/2) (1/2)).maxmuscle +
       (calculate_factors (1/2) (1/2) (1/2) (1/2) (1/2) (1/2) (1/2)).minmuscle +
       (calculate_factors (1/2) (1/2) (1/2) (1/2) (1/2) (1/2) (1/2)).averagemuscle = 1 ∧
     (calculate_factors (1/2) (1/2) (1/2) (1/2) (1/2) (1/2) (1/2)).maxweight +
       (calculate_factors (1/2) (1/2) (1/2) (1/2) (1/2) (1/2) (1/2)).minweight +
       (calculate_factors (1/2) (1/2) (1/2) (1/2) (1/2) (1/2) (1/2)).averageweight = 1 ∧
     (calculate_factors (1/2) (1/2) (1/2) (1/2) (1/2) (1/2) (1/2)).maxheight +
       (calculate_factors (1/2) (1/2) (1/2) (1/2) (1/2) (1/2) (1/2)).minheight +
       (calculate_factors (1/2) (1/2) (1/2) (1/2) (1/2) (1/2) (1/2)).averageheight = 1 ∧
     (calculate_factors (1/2) (1/2) (1/2) (1/2) (1/2) (1/2) (1/2)).maxcup +
       (calculate_factors (1/2) (1/2) (1/2) (1/2) (1/2) (1/2) (1/2)).mincup +
       (calculate_factors (1/2) (1/2) (1/2) (1/2) (1/2) (1/2) (1/2)).averagecup = 1 ∧
     (calculate_factors (1/2) (1/2) (1/2) (1/2) (1/2) (1/2) (1/2)).male +
       (calculate_factors (1/2) (1/2) (1/2) (1/2) (1/2) (1/2) (1/2)).female = 1 ∧
     (calculate_factors (1/2) (1/2) (1/2) (1/2) (1/2) (1/2) (1/2)).baby +
       (calculate_factors (1/2) (1/2) (1/2) (1/2) (1/2) (1/2) (1/2)).child +
       (calculate_factors (1/2) (1/2) (1/2) (1/2) (1/2) (1/2) (1/2)).young +
       (calculate_factors (1/2) (1/2) (1/2) (1/2) (1/2) (1/2) (1/2)).old = 1) :=
  ⟨by norm_num,
   calculate_factors_partition (1/2) (1/2) (1/2) (1/2) (1/2) (1/2) (1/2)
     (by norm_num) (by norm_num) (by norm_num) (by norm_num) (by norm_num)
     (by norm_num) (by norm_num)⟩

/-! ## Morph-target blending (`HumanSolver.solve_mesh`, mh_parser.py) -/

/-- A 3-vector of exact rationals. -/
abbrev V3 := Fin 3 → ℚ

/-- A tag value attached to a morph target: either the boolean flag
(`universal = True`) or a plain string value. -/
inductive TagVal where
  | bool : TagVal
  | str : String → TagVal

/-- A morph target as consumed by `solve_mesh`: its tag values and its
(optionally absent) sparse displacement data.  Indices are below the mesh
vertex count `m` per the data-model invariant. -/
structure MorphTarget (m : ℕ) where
  tags : List TagVal
  data : Option (List (Fin m × V3))

/-- The factor dictionary viewed as an association list. -/
abbrev FactorTable := List (String × ℚ)

/-- `factors.get('universal', 1.0)` for a boolean tag,
`factors.get(tag_val, 0.0)` otherwise. -/
def factorOf (factors : FactorTable) : TagVal → ℚ
  | .bool => (factors.lookup "universal").getD 1
  | .str s => (factors.lookup s).getD 0

/-- The running-product loop of `solve_mesh`: multiply the weight by each
tag's factor and abort (`none`) as soon as it drops below 1e-3. -/
def targetWeightAux (factors : FactorTable) : List TagVal → ℚ → Option ℚ
  | [], w => some w
  | t :: rest, w =>
    let w2 := w * factorOf factors t
    if w2 < 1/1000 then none else targetWeightAux factors rest w2

/-- Numpy fancy-indexed `a[indices] += vals`: the right-hand side is read
from the array as it was before the statement, and a duplicated index keeps
only its last occurrence (last write wins). -/
def scatterAddLW {ι : Type} [DecidableEq ι] (a : ι → V3) (upd : List (ι × V3)) : ι → V3 :=
  upd.foldl (fun r p => Function.update r p.1 (a p.1 + p.2)) a

/-- One iteration of the target loop of `solve_mesh`: compute the running
weight with the 1e-3 short-circuit and, when the target stays relevant and
has data, add `deltas * weight` via fancy indexing. -/
def applyTarget {m : ℕ} (factors : FactorTable) (verts : Fin m → V3)
    (t : MorphTarget m) : Fin m → V3 :=
  match targetWeightAux factors t.tags 1 with
  | none => verts
  | some w =>
    match t.data with
    | none => verts
    | some pairs => scatterAddLW verts (pairs.map fun p => (p.1, w • p.2))

/-- `HumanSolver.solve_mesh` (mh_parser.py, lines 256-300). -/
def solve_mesh {m : ℕ} (base : Fin m → V3) (targets : List (MorphTarget m))
    (factors : FactorTable) : Fin m → V3 :=
  targets.foldl (applyTarget factors) base

/-- The full tag-factor product of a target, with no short-circuit. -/
def fullProduct (factors : FactorTable) (tags : List TagVal) : ℚ :=
  (tags.map (factorOf factors)).prod

/-- Stated from the spec's words for the comparison in C4: every target is
applied with its full tag-factor product weight and no 1e-3 skip. -/
def applyTargetFull {m : ℕ} (factors : FactorTable) (verts : Fin m → V3)
    (t : MorphTarget m) : Fin m → V3 :=
  match t.data with
  | none => verts
  | some pairs =>
      scatterAddLW verts (pairs.map fun p => (p.1, fullProduct factors t.tags • p.2))

/-- Stated from the spec's words for the comparison in C4: morph blending
that applies every target with its full product weight. -/
def solve_mesh_full {m : ℕ} (base : Fin m → V3) (targets : List (MorphTarget m))
    (factors : FactorTable) : Fin m → V3 :=
  targets.foldl (applyTargetFull factors) base

/-- A product of values in [0,1] lies in [0,1]. -/
theorem prod_mem_unit (l : List ℚ) (h : ∀ x ∈ l, 0 ≤ x ∧ x ≤ 1) :
    0 ≤ l.prod ∧ l.prod ≤ 1 := by
  induction l with
  | nil => simp
  | cons a t ih =>
    have ha := h a (by simp)
    have ht := ih (fun x hx => h x (by simp [hx]))
    simp only [List.prod_cons]
    constructor
    · exact mul_nonneg ha.1 ht.1
    · calc a * t.prod ≤ 1 * 1 := by
            apply mul_le_mul ha.2 ht.2 ht.1 zero_le_one
        _ = 1 := by ring

/-- A successful association-list lookup returns a pair of the list. -/
theorem lookup_mem {α β : Type} [BEq α] [LawfulBEq α] {l : List (α × β)}
    {k : α} {v : β} (h : l.lookup k = some v) : (k, v) ∈ l := by
  induction l with
  | nil => simp [List.lookup] at h
  | cons p t ih =>
    rw [List.lookup] at h
    cases hk : (k == p.1) with
    | true =>
      rw [hk] at h
      simp only [Option.some.injEq] at h
      obtain ⟨a, b⟩ := p
      have hkk : k = a := eq_of_beq hk
      have hv : b = v := h
      subst hkk
      subst hv
      exact List.mem_cons_self _ _
    | false =>
      rw [hk] at h
      exact List.mem_cons_of_mem _ (ih h)

/-- Every factor that `factorOf` can return is in [0,1] when the table's
values are. -/
theorem factorOf_mem_unit (factors : FactorTable) (t : TagVal)
    (hf : ∀ p ∈ factors, 0 ≤ p.2 ∧ p.2 ≤ 1) :
    0 ≤ factorOf factors t ∧ factorOf factors t ≤ 1 := by
  cases t with
  | bool =>
    simp only [factorOf]
    cases h : factors.lookup "universal" with
    | none => simp
    | some v => exact (by simpa using hf _ (lookup_mem h))
  | str s =>
    simp only [factorOf]
    cases h : factors.lookup s with
    | none => simp
    | some v => exact (by simpa using hf _ (lookup_mem h))

/-- With factors in [0,1] the running product is non-increasing, so the
short-circuit fires exactly when the full product is below 1e-3. -/
theorem targetWeightAux_eq (factors : FactorTable) (tags : List TagVal) (w : ℚ)
    (hf : ∀ p ∈ factors, 0 ≤ p.2 ∧ p.2 ≤ 1) (hw0 : 0 ≤ w) (hw : ¬ w < 1/1000) :
    targetWeightAux factors tags w =
      if w * (tags.map (factorOf factors)).prod < 1/1000 then none
      else some (w * (tags.map (factorOf factors)).prod) := by
  induction tags generalizing w with
  | nil => simp only [targetWeightAux, List.map_nil, List.prod_nil, mul_one, if_neg hw]
  | cons t rest ih =>
    have hv := factorOf_mem_unit factors t hf
    have hrest := prod_mem_unit (rest.map (factorOf factors))
      (by intro x hx
          rcases List.mem_map.1 hx with ⟨tv, _, rfl⟩
          exact factorOf_mem_unit factors tv hf)
    simp only [targetWeightAux, List.map_cons, List.prod_cons]
    by_cases hcut : w * factorOf factors t < 1/1000
    · rw [if_pos hcut]
      have : w * (factorOf factors t * (rest.map (factorOf factors)).prod) < 1/1000 := by
        have h1 : 0 ≤ w * factorOf factors t := mul_nonneg hw0 hv.1
        nlinarith [hrest.1, hrest.2]
      rw [if_pos this]
    · rw [if_neg hcut]
      rw [ih (w * factorOf factors t) (mul_nonneg hw0 hv.1) hcut]
      rw [mul_assoc]

/-- C4 counterexample: one target with one tag whose factor is 1/2000.
The skipping `solve_mesh` leaves the base unchanged while the full-weight
variant moves vertex 0, so the two are not equal. -/
theorem solve_mesh_skip_counterexample :
    solve_mesh (m := 1) (fun _ _ => 0)
        [⟨[TagVal.str "a"], some [(0, fun _ => 1)]⟩] [("a", 1/2000)] ≠
      solve_mesh_full (m := 1) (fun _ _ => 0)
        [⟨[TagVal.str "a"], some [(0, fun _ => 1)]⟩] [("a", 1/2000)] := by
  intro h
  have h0 := congrFun (congrFun h 0) 0
  simp [solve_mesh, solve_mesh_full, applyTarget, applyTargetFull, targetWeightAux,
    factorOf, fullProduct, scatterAddLW, Function.update] at h0
  norm_num at h0

/-- C4 amended: with all factor values in [0,1], the running product is
non-increasing, so the early skip removes exactly the targets whose full
tag-factor product is below 1e-3; the skipping `solve_mesh` equals the
full-weight blend restricted to the targets whose full product is at least
1e-3.  (Exact equality with the unrestricted full blend fails: a skipped
target with product in (0, 1e-3) does contribute there.) -/
theorem solve_mesh_skip_eq_filtered {m : ℕ} (base : Fin m → V3)
    (targets : List (MorphTarget m)) (factors : FactorTable)
    (hf : ∀ p ∈ factors, 0 ≤ p.2 ∧ p.2 ≤ 1) :
    solve_mesh base targets factors =
      solve_mesh_full base
        (targets.filter fun t => 1/1000 ≤ fullProduct factors t.tags) factors := by
  unfold solve_mesh solve_mesh_full
  induction targets generalizing base with
  | nil => rfl
  | cons t rest ih =>
    have hwt := targetWeightAux_eq factors t.tags 1 hf zero_le_one (by norm_num)
    simp only [one_mul] at hwt
    by_cases hkeep : 1/1000 ≤ fullProduct factors t.tags
    · have : applyTarget factors base t = applyTargetFull factors base t := by
        unfold applyTarget applyTargetFull fullProduct at *
        rw [hwt, if_neg (not_lt.2 hkeep)]
      rw [List.foldl_cons, this, List.filter_cons_of_pos (by simpa using hkeep),
        List.foldl_cons]
      exact ih _
    · have : applyTarget factors base t = base := by
        unfold applyTarget applyTargetFull fullProduct at *
        rw [hwt, if_pos (lt_of_not_le hkeep)]
      rw [List.foldl_cons, this, List.filter_cons_of_neg (by simpa using hkeep)]
      exact ih _

/-- Witness for C4's amended theorem at a concrete input. -/
theorem solve_mesh_skip_eq_filtered_witness :
    (∀ p ∈ ([("a", (1:ℚ)/2)] : FactorTable), 0 ≤ p.2 ∧ p.2 ≤ 1) ∧
    solve_mesh (m := 1) (fun _ _ => 0)
        [⟨[TagVal.str "a"], some [(0, fun _ => 1)]⟩] [("a", 1/2)] =
      solve_mesh_full (m := 1) (fun _ _ => 0)
        ([⟨[TagVal.str "a"], some [(0, fun _ => 1)]⟩].filter
          fun t => 1/1000 ≤ fullProduct [("a", 1/2)] t.tags) [("a", 1/2)] :=
  ⟨by intro p hp; simp at hp; norm_num [hp],
   solve_mesh_skip_eq_filtered _ _ _ (by intro p hp; simp at hp; norm_num [hp])⟩

/-- The value that a last-write-wins scatter leaves at index `i`:
the update value of the last pair naming `i`, if any. -/
def lwContrib {ι : Type} [DecidableEq ι] (upd : List (ι × V3)) (i : ι) : V3 :=
  match (upd.filter fun p => p.1 = i).getLast? with
  | none => 0
  | some p => p.2

/-- Pointwise description of the fancy-indexed add. -/
theorem scatterAddLW_apply {ι : Type} [DecidableEq ι] (a : ι → V3)
    (upd : List (ι × V3)) (i : ι) : scatterAddLW a upd i = a i + lwContrib upd i := by
  induction upd using List.reverseRecOn with
  | nil => simp [scatterAddLW, lwContrib]
  | append_singleton l p ih =>
    unfold scatterAddLW at *
    rw [List.foldl_append, List.foldl_cons, List.foldl_nil]
    unfold lwContrib at *
    rw [List.filter_append]
    by_cases hp : p.1 = i
    · simp only [List.filter_cons, List.filter_nil, decide_eq_true_eq, hp,
        if_pos rfl]
      simp [Function.update, hp]
    · have : (List.filter (fun q => decide (q.1 = i)) [p]) = [] := by
        simp [List.filter, hp]
      rw [this, List.append_nil]
      rw [Function.update_noteq (by simpa using Ne.symm hp)]
      exact ih

/-- The net displacement that one pass of the target loop adds at vertex
`i`; independent of the current vertex buffer. -/
def tContrib {m : ℕ} (factors : FactorTable) (t : MorphTarget m) (i : Fin m) : V3 :=
  match targetWeightAux factors t.tags 1, t.data with
  | some w, some pairs => lwContrib (pairs.map fun p => (p.1, w • p.2)) i
  | _, _ => 0

/-- Each target step is a pointwise translation by `tContrib`. -/
theorem applyTarget_apply {m : ℕ} (factors : FactorTable) (verts : Fin m → V3)
    (t : MorphTarget m) (i : Fin m) :
    applyTarget factors verts t i = verts i + tContrib factors t i := by
  unfold applyTarget tContrib
  cases targetWeightAux factors t.tags 1 with
  | none => simp
  | some w =>
    cases t.data with
    | none => simp
    | some pairs => simp [scatterAddLW_apply]

/-- `solve_mesh` is the base plus the sum of the per-target contributions. -/
theorem solve_mesh_apply {m : ℕ} (base : Fin m → V3) (targets : List (MorphTarget m))
    (factors : FactorTable) (i : Fin m) :
    solve_mesh base targets factors i =
      base i + (targets.map fun t => tContrib factors t i).sum := by
  unfold solve_mesh
  induction targets generalizing base with
  | nil => simp
  | cons t rest ih =>
    rw [List.foldl_cons, ih]
    rw [List.map_cons, List.sum_cons]
    rw [applyTarget_apply]
    abel

/-- C8: `solve_mesh` is order-independent; permuting the target list leaves
the result unchanged (exactly, hence within 1e-5 per vertex): the
accumulation is a plain additive vector sum. -/
theorem solve_mesh_perm {m : ℕ} (base : Fin m → V3)
    (l1 l2 : List (MorphTarget m)) (factors : FactorTable) (hp : l1.Perm l2) :
    solve_mesh base l1 factors = solve_mesh base l2 factors := by
  funext i
  rw [solve_mesh_apply, solve_mesh_apply]
  congr 1
  exact List.Perm.sum_eq (hp.map _)

/-- Witness for C8: two concrete targets in both orders. -/
theorem solve_mesh_perm_witness :
    solve_mesh (m := 2) (fun _ _ => 0)
        [⟨[], some [(0, fun _ => 1)]⟩, ⟨[], some [(1, fun _ => 2)]⟩] [] =
      solve_mesh (m := 2) (fun _ _ => 0)
        [⟨[], some [(1, fun _ => 2)]⟩, ⟨[], some [(0, fun _ => 1)]⟩] [] :=
  solve_mesh_perm _ _ _ []
    (List.Perm.swap (⟨[], some [(1, fun _ => 2)]⟩ : MorphTarget 2)
      (⟨[], some [(0, fun _ => 1)]⟩ : MorphTarget 2) [])

/-! ## Bone hierarchy and pose/skinning matrices (mh_skeleton.py `Bone.update`)

The skeleton is embedded as an arena: bones in an array, each bone's parent
at a strictly smaller index (the source's breadth-first order guarantees a
parent is updated before any child). -/

/-- A 4x4 matrix of exact rationals. -/
abbrev Mat4 := Matrix (Fin 4) (Fin 4) ℚ

/-- The per-bone state read by `Bone.update`. -/
structure BoneM where
  name : String
  matRestGlobal : Mat4
  matRestRelative : Mat4
  matPose : Mat4

/-- A skeleton in breadth-first arena form: `parent i`, when present, is an
index strictly below `i`. -/
structure SkelM (n : ℕ) where
  bones : Fin n → BoneM
  parent : Fin n → Option (Fin n)
  hpar : ∀ i j, parent i = some j → (j : ℕ) < (i : ℕ)

/-- The global pose matrix computed by `Bone.update`:
`parent.matPoseGlobal @ (matRestRelative @ matPose)`, or
`matRestRelative @ matPose` at a root.  Well-founded on the bone index since
parents precede children. -/
def matPoseGlobal {n : ℕ} (S : SkelM n) (i : Fin n) : Mat4 :=
  match h : S.parent i with
  | none => (S.bones i).matRestRelative * (S.bones i).matPose
  | some j =>
    have : (j : ℕ) < (i : ℕ) := S.hpar i j h
    matPoseGlobal S j * ((S.bones i).matRestRelative * (S.bones i).matPose)
termination_by (i : ℕ)

/-- The skinning matrix computed by `Bone.update`:
`matPoseGlobal @ inv(matRestGlobal)`, with the `LinAlgError` branch on a
singular rest matrix replaced by the identity. -/
noncomputable def matPoseVerts {n : ℕ} (S : SkelM n) (i : Fin n) : Mat4 :=
  if (S.bones i).matRestGlobal.det = 0 then 1
  else matPoseGlobal S i * ((S.bones i).matRestGlobal)⁻¹

/-- C7: `Bone.update` computes the skinning matrix as
`globalPose * inverse(restGlobal)` (characterised by
`matPoseVerts * restGlobal = globalPose` when the rest matrix is
invertible), and substitutes the identity and returns normally when the rest
matrix is singular. -/
theorem matPoseVerts_spec {n : ℕ} (S : SkelM n) (i : Fin n) :
    ((S.bones i).matRestGlobal.det = 0 → matPoseVerts S i = 1) ∧
    ((S.bones i).matRestGlobal.det ≠ 0 →
      matPoseVerts S i * (S.bones i).matRestGlobal = matPoseGlobal S i) := by
  constructor
  · intro h
    simp [matPoseVerts, h]
  · intro h
    have hu : IsUnit (S.bones i).matRestGlobal.det := isUnit_iff_ne_zero.mpr h
    rw [matPoseVerts, if_neg h, mul_assoc, Matrix.nonsing_inv_mul _ hu, mul_one]

/-- A one-bone skeleton with identity matrices, used as a concrete input. -/
def skelOne : SkelM 1 where
  bones := fun _ => ⟨"root", 1, 1, 1⟩
  parent := fun _ => none
  hpar := fun i j h => by simp at h

/-- Witness for C7: on a concrete invertible rest matrix the skinning matrix
is a genuine right-quotient. -/
theorem matPoseVerts_spec_witness :
    matPoseVerts skelOne 0 * (skelOne.bones 0).matRestGlobal = matPoseGlobal skelOne 0 :=
  (matPoseVerts_spec skelOne 0).2 (by simp [skelOne])

/-! ## Linear blend skinning (`__init__.py`, shared skinning logic) -/

/-- Homogeneous lift of a rest vertex: `np.hstack([v, 1])`. -/
def homQ (v : V3) : Fin 4 → ℚ := ![v 0, v 1, v 2, 1]

/-- Drop the homogeneous coordinate: `vs_trans[:, :3]`. -/
def xyzQ (v : Fin 4 → ℚ) : V3 := ![v 0, v 1, v 2]

/-- `np.add.at(total, indices, w)`: true accumulation, duplicates included. -/
def scatterAccum {ι : Type} [DecidableEq ι] (a : ι → ℚ) (upd : List (ι × ℚ)) : ι → ℚ :=
  upd.foldl (fun r p => Function.update r p.1 (r p.1 + p.2)) a

/-- The weight entries of a skeleton's `vertexWeights.data`, keyed by bone
name exactly as in the source dictionary. -/
abbrev SkinEntries (m : ℕ) := List (String × List (Fin m × ℚ))

/-- `bone_matrices[b_name]` resolution: the skinning matrix of the bone with
the given name, if any. -/
def findBone {n : ℕ} (S : SkelM n) (bname : String) : Option (Fin n) :=
  (List.finRange n).find? fun i => (S.bones i).name = bname

/-- One iteration of the skinning loop (`__init__.py`, lines 474-484):
transform the homogeneous rest positions at the entry's indices by the
bone's skinning matrix, scale by the per-vertex weight, fancy-index-add into
the deformed buffer, and `np.add.at` the weights into the total-weight
buffer; an entry whose bone name resolves to no bone is skipped. -/
noncomputable def skinStep {n m : ℕ} (S : SkelM n) (verts : Fin m → V3)
    (acc : (Fin m → V3) × (Fin m → ℚ)) (e : String × List (Fin m × ℚ)) :
    (Fin m → V3) × (Fin m → ℚ) :=
  match findBone S e.1 with
  | none => acc
  | some b =>
    (scatterAddLW acc.1
       (e.2.map fun p => (p.1, p.2 • xyzQ ((matPoseVerts S b).mulVec (homQ (verts p.1))))),
     scatterAccum acc.2 e.2)

/-- The accumulation phase of the shared skinning logic
(`__init__.py`, lines 464-484). -/
noncomputable def skinAccum {n m : ℕ} (S : SkelM n) (verts : Fin m → V3)
    (entries : SkinEntries m) : (Fin m → V3) × (Fin m → ℚ) :=
  entries.foldl (skinStep S verts) (fun _ _ => 0, fun _ => 0)

/-- The shared skinning logic (`__init__.py`, lines 464-496): accumulate,
then leave every vertex whose total weight is below 0.01 at its rest
position. -/
noncomputable def skin {n m : ℕ} (S : SkelM n) (verts : Fin m → V3)
    (entries : SkinEntries m) : Fin m → V3 :=
  fun i =>
    if (skinAccum S verts entries).2 i < 1/100 then verts i
    else (skinAccum S verts entries).1 i

/-- Sum of the scalar values carried at index `i`. -/
def sumAtQ {ι : Type} [DecidableEq ι] (l : List (ι × ℚ)) (i : ι) : ℚ :=
  ((l.filter fun p => p.1 = i).map Prod.snd).sum

/-- Sum of the vector values carried at index `i`. -/
def sumAtV {ι : Type} [DecidableEq ι] (l : List (ι × V3)) (i : ι) : V3 :=
  ((l.filter fun p => p.1 = i).map Prod.snd).sum

/-- With no duplicate indices a last-write-wins scatter carries the whole
(sole) contribution at each index. -/
theorem lwContrib_eq_sumAtV {ι : Type} [DecidableEq ι] (l : List (ι × V3))
    (i : ι) (h : (l.map Prod.fst).Nodup) : lwContrib l i = sumAtV l i := by
  induction l with
  | nil => simp [lwContrib, sumAtV]
  | cons p t ih =>
    rw [List.map_cons, List.nodup_cons] at h
    by_cases hp : p.1 = i
    · have hnot : t.filter (fun q => decide (q.1 = i)) = [] := by
        rw [List.filter_eq_nil_iff]
        intro q hq hqi
        simp only [decide_eq_true_eq] at hqi
        apply h.1
        have hm : q.1 ∈ t.map Prod.fst := List.mem_map_of_mem Prod.fst hq
        rw [hqi] at hm
        rw [hp]
        exact hm
      unfold lwContrib sumAtV
      rw [List.filter_cons_of_pos (by simpa using hp), hnot]
      simp
    · unfold lwContrib sumAtV at *
      rw [List.filter_cons_of_neg (by simpa using hp)]
      exact ih h.2

/-- Pointwise value of the accumulating scatter (`np.add.at`). -/
theorem scatterAccum_apply {ι : Type} [DecidableEq ι] (a : ι → ℚ)
    (l : List (ι × ℚ)) (i : ι) : scatterAccum a l i = a i + sumAtQ l i := by
  induction l generalizing a with
  | nil => simp [scatterAccum, sumAtQ]
  | cons p t ih =>
    unfold scatterAccum sumAtQ at *
    rw [List.foldl_cons, ih]
    by_cases hp : p.1 = i
    · rw [List.filter_cons_of_pos (by simpa using hp)]
      rw [Function.update_apply, if_pos hp.symm, hp]
      simp only [List.map_cons, List.sum_cons]
      ring
    · rw [List.filter_cons_of_neg (by simpa using hp)]
      rw [Function.update_apply, if_neg (fun hh => hp hh.symm)]

/-- Sum of a list of scalar multiples of a fixed vector. -/
theorem sum_map_smul_const (l : List ℚ) (v : V3) :
    (l.map fun q => q • v).sum = l.sum • v := by
  induction l with
  | nil => simp
  | cons q t ih =>
    simp only [List.map_cons, List.sum_cons, ih, add_smul]

/-- The net contribution a single weight entry adds at vertex `i`: the plain
weighted sum of skinning-transformed positions, with no renormalization. -/
noncomputable def skinContrib {n m : ℕ} (S : SkelM n) (verts : Fin m → V3)
    (e : String × List (Fin m × ℚ)) (i : Fin m) : V3 :=
  match findBone S e.1 with
  | none => 0
  | some b =>
      sumAtV (e.2.map fun p =>
        (p.1, p.2 • xyzQ ((matPoseVerts S b).mulVec (homQ (verts p.1))))) i

/-- The weight a single entry adds at vertex `i`. -/
def entryWeight {n m : ℕ} (S : SkelM n) (e : String × List (Fin m × ℚ))
    (i : Fin m) : ℚ :=
  match findBone S e.1 with
  | none => 0
  | some _ => sumAtQ e.2 i

/-- Each skinning-loop iteration is a pointwise translation of both
buffers. -/
theorem skinStep_apply {n m : ℕ} (S : SkelM n) (verts : Fin m → V3)
    (acc : (Fin m → V3) × (Fin m → ℚ)) (e : String × List (Fin m × ℚ))
    (he : (e.2.map Prod.fst).Nodup) (i : Fin m) :
    (skinStep S verts acc e).1 i = acc.1 i + skinContrib S verts e i ∧
      (skinStep S verts acc e).2 i = acc.2 i + entryWeight S e i := by
  cases hb : findBone S e.1 with
  | none => simp [skinStep, skinContrib, entryWeight, hb]
  | some b =>
    simp only [skinStep, skinContrib, entryWeight, hb]
    constructor
    · rw [scatterAddLW_apply, lwContrib_eq_sumAtV _ _ (by simpa using he)]
    · rw [scatterAccum_apply]

/-- Closed form of the skinning accumulation: deformed buffer and
total-weight buffer are plain sums of the per-entry contributions. -/
theorem skinAccum_apply {n m : ℕ} (S : SkelM n) (verts : Fin m → V3)
    (entries : SkinEntries m)
    (hnodup : ∀ e ∈ entries, (e.2.map Prod.fst).Nodup) (i : Fin m) :
    (skinAccum S verts entries).1 i =
        (entries.map fun e => skinContrib S verts e i).sum ∧
      (skinAccum S verts entries).2 i =
        (entries.map fun e => entryWeight S e i).sum := by
  unfold skinAccum
  suffices H : ∀ acc : (Fin m → V3) × (Fin m → ℚ),
      (∀ e ∈ entries, (e.2.map Prod.fst).Nodup) →
      (entries.foldl (skinStep S verts) acc).1 i =
        acc.1 i + (entries.map fun e => skinContrib S verts e i).sum ∧
      (entries.foldl (skinStep S verts) acc).2 i =
        acc.2 i + (entries.map fun e => entryWeight S e i).sum by
    have h := H (fun _ _ => 0, fun _ => 0) hnodup
    refine ⟨?_, ?_⟩
    · rw [h.1]
      exact zero_add _
    · rw [h.2]
      exact zero_add _
  clear hnodup
  induction entries with
  | nil => intro acc _; simp
  | cons e rest ih =>
    intro acc hnodup
    have he := hnodup e (by simp)
    have hrest : ∀ e' ∈ rest, (e'.2.map Prod.fst).Nodup :=
      fun e' he' => hnodup e' (by simp [he'])
    rw [List.foldl_cons]
    have hstep := skinStep_apply S verts acc e he i
    have htail := ih (skinStep S verts acc e) hrest
    rw [List.map_cons, List.sum_cons, List.map_cons, List.sum_cons]
    constructor
    · rw [htail.1, hstep.1]; abel
    · rw [htail.2, hstep.2]; abel

/-- C3: after the accumulation over all weighted bones, a vertex whose total
weight is below 0.01 is output exactly at its rest position, and a vertex
with enough weight is output as the plain per-entry weighted sum — not
renormalized by its accumulated weight. -/
theorem skin_fallback_no_renormalize {n m : ℕ} (S : SkelM n) (verts : Fin m → V3)
    (entries : SkinEntries m)
    (hnodup : ∀ e ∈ entries, (e.2.map Prod.fst).Nodup) (i : Fin m) :
    ((skinAccum S verts entries).2 i < 1/100 → skin S verts entries i = verts i) ∧
    (¬ (skinAccum S verts entries).2 i < 1/100 →
      skin S verts entries i = (entries.map fun e => skinContrib S verts e i).sum) := by
  constructor
  · intro h
    simp only [skin, if_pos h]
  · intro h
    simp only [skin, if_neg h]
    exact (skinAccum_apply S verts entries hnodup i).1

/-- Witness for C3 on a concrete one-bone skeleton and one weight entry. -/
theorem skin_fallback_no_renormalize_witness :
    (((skinAccum skelOne (fun _ _ => 0) [("root", [((0 : Fin 1), (1:ℚ))])]).2 0 < 1/100 →
        skin skelOne (fun _ _ => 0) [("root", [((0 : Fin 1), (1:ℚ))])] 0 = (fun _ => 0)) ∧
      (¬ (skinAccum skelOne (fun _ _ => 0) [("root", [((0 : Fin 1), (1:ℚ))])]).2 0 < 1/100 →
        skin skelOne (fun _ _ => 0) [("root", [((0 : Fin 1), (1:ℚ))])] 0 =
          ([("root", [((0 : Fin 1), (1:ℚ))])].map
            fun e => skinContrib skelOne (fun _ _ => 0) e 0).sum)) :=
  skin_fallback_no_renormalize skelOne (fun _ _ => 0) [("root", [((0 : Fin 1), (1:ℚ))])]
    (by decide) 0

/-- Unfolding `matPoseGlobal` at a root bone. -/
theorem matPoseGlobal_eq_none {n : ℕ} (S : SkelM n) (i : Fin n)
    (h : S.parent i = none) :
    matPoseGlobal S i = (S.bones i).matRestRelative * (S.bones i).matPose := by
  rw [matPoseGlobal]
  split
  · rfl
  next j hp =>
    rw [h] at hp
    cases hp

/-- Unfolding `matPoseGlobal` at a child bone. -/
theorem matPoseGlobal_eq_some {n : ℕ} (S : SkelM n) (i j : Fin n)
    (h : S.parent i = some j) :
    matPoseGlobal S i =
      matPoseGlobal S j * ((S.bones i).matRestRelative * (S.bones i).matPose) := by
  rw [matPoseGlobal]
  split
  next hp =>
    rw [hp] at h
    cases h
  next j2 hp =>
    rw [hp] at h
    injection h with h
    subst h
    rfl

/-- With identity local poses the global pose of every bone equals its rest
global matrix (parent-before-child induction on the arena index). -/
theorem matPoseGlobal_rest {n : ℕ} (S : SkelM n)
    (hpose : ∀ i, (S.bones i).matPose = 1)
    (hrelroot : ∀ i, S.parent i = none →
      (S.bones i).matRestRelative = (S.bones i).matRestGlobal)
    (hrelchild : ∀ i j, S.parent i = some j →
      (S.bones j).matRestGlobal * (S.bones i).matRestRelative =
        (S.bones i).matRestGlobal) :
    ∀ i, matPoseGlobal S i = (S.bones i).matRestGlobal := by
  have H : ∀ k : ℕ, ∀ i : Fin n, (i : ℕ) ≤ k →
      matPoseGlobal S i = (S.bones i).matRestGlobal := by
    intro k
    induction k with
    | zero =>
      intro i hi
      cases hp : S.parent i with
      | none =>
        rw [matPoseGlobal_eq_none S i hp, hpose i, mul_one]
        exact hrelroot i hp
      | some j =>
        exact absurd (S.hpar i j hp) (by omega)
    | succ k ih =>
      intro i hi
      cases hp : S.parent i with
      | none =>
        rw [matPoseGlobal_eq_none S i hp, hpose i, mul_one]
        exact hrelroot i hp
      | some j =>
        have hj := S.hpar i j hp
        rw [matPoseGlobal_eq_some S i j hp, hpose i, mul_one, ih j (by omega)]
        exact hrelchild i j hp
  exact fun i => H i i le_rfl

/-- With identity local poses every skinning matrix is the identity. -/
theorem matPoseVerts_one {n : ℕ} (S : SkelM n)
    (hpose : ∀ i, (S.bones i).matPose = 1)
    (hrelroot : ∀ i, S.parent i = none →
      (S.bones i).matRestRelative = (S.bones i).matRestGlobal)
    (hrelchild : ∀ i j, S.parent i = some j →
      (S.bones j).matRestGlobal * (S.bones i).matRestRelative =
        (S.bones i).matRestGlobal) (i : Fin n) :
    matPoseVerts S i = 1 := by
  unfold matPoseVerts
  by_cases hd : (S.bones i).matRestGlobal.det = 0
  · rw [if_pos hd]
  · rw [if_neg hd, matPoseGlobal_rest S hpose hrelroot hrelchild i]
    exact Matrix.mul_nonsing_inv _ (isUnit_iff_ne_zero.mpr hd)

/-- The identity matrix transports a homogeneous vertex to itself. -/
theorem xyzQ_one_mulVec (v : V3) : xyzQ ((1 : Mat4).mulVec (homQ v)) = v := by
  rw [Matrix.one_mulVec]
  funext j
  fin_cases j <;> simp [xyzQ, homQ]

/-- Weighted vector contributions at one index collapse to the scalar sum at
that index times the vertex value. -/
theorem sumAtV_map_smul {ι : Type} [DecidableEq ι] (l : List (ι × ℚ)) (v : ι → V3) (i : ι) :
    sumAtV (l.map fun p => (p.1, p.2 • v p.1)) i = sumAtQ l i • v i := by
  unfold sumAtV sumAtQ
  induction l with
  | nil => simp
  | cons p t ih =>
    by_cases hp : p.1 = i
    · rw [List.map_cons, List.filter_cons_of_pos (by simpa using hp),
        List.filter_cons_of_pos (by simpa using hp)]
      simp only [List.map_cons, List.sum_cons]
      rw [ih, hp, add_smul]
    · rw [List.map_cons, List.filter_cons_of_neg (by simpa using hp),
        List.filter_cons_of_neg (by simpa using hp)]
      exact ih

/-- C2: if every bone's local pose matrix is the identity (with rest-matrix
consistency as produced by `Bone.build`) and each vertex's weights sum to 1
across the entries, then skinning accumulates total weight 1 > 0.01 at every
vertex and returns it exactly at its rest position. -/
theorem skin_identity_pose {n m : ℕ} (S : SkelM n) (verts : Fin m → V3)
    (entries : SkinEntries m)
    (hpose : ∀ i, (S.bones i).matPose = 1)
    (hrelroot : ∀ i, S.parent i = none →
      (S.bones i).matRestRelative = (S.bones i).matRestGlobal)
    (hrelchild : ∀ i j, S.parent i = some j →
      (S.bones j).matRestGlobal * (S.bones i).matRestRelative =
        (S.bones i).matRestGlobal)
    (hres : ∀ e ∈ entries, findBone S e.1 ≠ none)
    (hnodup : ∀ e ∈ entries, (e.2.map Prod.fst).Nodup)
    (hsum : ∀ i : Fin m, (entries.map fun e => sumAtQ e.2 i).sum = 1)
    (i : Fin m) :
    1/100 < (skinAccum S verts entries).2 i ∧ skin S verts entries i = verts i := by
  have hM : ∀ b, matPoseVerts S b = 1 :=
    matPoseVerts_one S hpose hrelroot hrelchild
  have hw : (skinAccum S verts entries).2 i = 1 := by
    rw [(skinAccum_apply S verts entries hnodup i).2]
    rw [List.map_congr_left (fun e he => ?_), hsum i]
    unfold entryWeight
    cases hb : findBone S e.1 with
    | none => exact absurd hb (hres e he)
    | some b => rfl
  have hv : (skinAccum S verts entries).1 i = verts i := by
    rw [(skinAccum_apply S verts entries hnodup i).1]
    have hcontrib : ∀ e ∈ entries,
        skinContrib S verts e i = sumAtQ e.2 i • verts i := by
      intro e he
      unfold skinContrib
      cases hb : findBone S e.1 with
      | none => exact absurd hb (hres e he)
      | some b =>
        simp only [hM b]
        have : (e.2.map fun p =>
            (p.1, p.2 • xyzQ ((1 : Mat4).mulVec (homQ (verts p.1))))) =
            e.2.map fun p => (p.1, p.2 • verts p.1) := by
          apply List.map_congr_left
          intro p _
          rw [xyzQ_one_mulVec]
        rw [this, sumAtV_map_smul]
    rw [List.map_congr_left hcontrib]
    have : (entries.map fun e => sumAtQ e.2 i • verts i) =
        (entries.map fun e => sumAtQ e.2 i).map fun q => q • verts i := by
      rw [List.map_map]
      rfl
    rw [this, sum_map_smul_const, hsum i, one_smul]
  refine ⟨by rw [hw]; norm_num, ?_⟩
  rw [skin]
  rw [hw]
  rw [if_neg (by norm_num)]
  exact hv

/-- Witness for C2 on a concrete one-bone skeleton with unit weights. -/
theorem skin_identity_pose_witness :
    1/100 < (skinAccum skelOne (fun _ _ => 0) [("root", [((0 : Fin 1), (1:ℚ))])]).2 0 ∧
      skin skelOne (fun _ _ => 0) [("root", [((0 : Fin 1), (1:ℚ))])] 0 = (fun _ => 0) :=
  skin_identity_pose skelOne (fun _ _ => 0) [("root", [((0 : Fin 1), (1:ℚ))])]
    (fun _ => rfl) (fun _ _ => rfl) (fun i j h => by simp [skelOne] at h)
    (by decide) (by decide) (by intro i; fin_cases i; norm_num [sumAtQ]) 0

/-! ## Vertex-bone weight construction
(`VertexBoneWeights._build_vertex_weights_data`, mh_skeleton.py) -/

/-- Raw per-bone weight data: bone name to list of (vertexIndex, weight),
in file order. -/
abbrev WeightsInput := List (String × List (ℕ × ℚ))

/-- Python-dict insert-or-add: add `w` at key `v` if present, else append
`(v, w)`; insertion order of first occurrences is preserved. -/
def assocAdd (acc : List (ℕ × ℚ)) (v : ℕ) (w : ℚ) : List (ℕ × ℚ) :=
  if v ∈ acc.map Prod.fst then
    acc.map fun q => if q.1 = v then (q.1, q.2 + w) else q
  else acc ++ [(v, w)]

/-- Python-dict assignment on a string-keyed ordered dict: replace the value
in place if the key exists, else append. -/
def assocSet (l : List (String × List (ℕ × ℚ))) (k : String)
    (v : List (ℕ × ℚ)) : List (String × List (ℕ × ℚ)) :=
  if k ∈ l.map Prod.fst then
    l.map fun q => if q.1 = k then (k, v) else q
  else l ++ [(k, v)]

/-- The per-vertex raw weight totals `wtot` (`wtot[vn] += w` over every
bone's group). -/
def wtotOf (data : WeightsInput) : ℕ → ℚ :=
  data.foldl (fun acc bg => scatterAccum acc bg.2) (fun _ => 0)

/-- The vertex count: the given count, else `max(all indices) + 1`
(0 for empty data). -/
def vcountOf (data : WeightsInput) (vertexCount : Option ℕ) : ℕ :=
  match vertexCount with
  | some c => c
  | none =>
    let vals := (data.map fun bg => bg.2.map Prod.fst).flatten
    if vals.isEmpty then 0 else vals.foldr max 0 + 1

/-- Per-bone processing: merge duplicate vertex indices while normalizing
each raw weight by `wtot`, sort by vertex index, and prune weights at or
below the 1e-4 threshold. -/
def buildBoneEntry (wtot : ℕ → ℚ) (vgroup : List (ℕ × ℚ)) : List (ℕ × ℚ) :=
  (List.insertionSort (fun a b => a.1 ≤ b.1)
      (vgroup.foldl (fun acc p => assocAdd acc p.1 (p.2 / wtot p.1)) [])).filter
    fun p => 1/10000 < p.2

/-- The main loop of `_build_vertex_weights_data`: one processed entry per
bone, skipping bones with empty groups. -/
def buildBoneWeights (data : WeightsInput) (wtot : ℕ → ℚ) : WeightsInput :=
  data.foldl
    (fun acc bg => if bg.2 = [] then acc else acc ++ [(bg.1, buildBoneEntry wtot bg.2)])
    []

/-- The root bone's current entry (empty when absent). -/
def rootBase (bw : WeightsInput) (root : String) : List (ℕ × ℚ) :=
  match bw.lookup root with
  | none => []
  | some l => l

/-- The vertices below the vertex count whose raw total weight is zero
(`np.argwhere(wtot == 0)`). -/
def zeroWeightVerts (wtot : ℕ → ℚ) (vcount : ℕ) : List ℕ :=
  (List.range vcount).filter fun v => wtot v = 0

/-- The root-bone fix-up: every vertex below the vertex count whose raw
total weight is zero is appended to the root bone's entry with weight 1. -/
def rootFix (bw : WeightsInput) (wtot : ℕ → ℚ) (vcount : ℕ) (root : String) :
    WeightsInput :=
  if rootBase bw root ++ (zeroWeightVerts wtot vcount).map (fun v => (v, (1 : ℚ))) = []
  then bw
  else assocSet bw root
    (rootBase bw root ++ (zeroWeightVerts wtot vcount).map fun v => (v, (1 : ℚ)))

/-- `VertexBoneWeights._build_vertex_weights_data`
(mh_skeleton.py, lines 44-113), main path. -/
def buildVertexWeights (data : WeightsInput) (vertexCount : Option ℕ)
    (root : String) : WeightsInput :=
  rootFix (buildBoneWeights data (wtotOf data)) (wtotOf data)
    (vcountOf data vertexCount) root

/-- The stored weight for vertex `v` summed across all bones of the built
structure. -/
def storedSum (w : WeightsInput) (v : ℕ) : ℚ :=
  (w.map fun bg => sumAtQ bg.2 v).sum

/-- C5 counterexample: vertex 0 carries raw weights 1/20000 (bone a) and 1
(bone b); bone a's normalized share 1/20001 falls at or below the 1e-4
pruning threshold and is dropped, so the stored per-vertex sum is
20000/20001, not 1. -/
theorem buildVertexWeights_sum_counterexample :
    storedSum (buildVertexWeights
        [("a", [(0, 1/20000)]), ("b", [(0, 1)])] none "root") 0 ≠ 1 := by
  simp [storedSum, buildVertexWeights, rootFix, rootBase, zeroWeightVerts,
    buildBoneWeights, buildBoneEntry, assocAdd, assocSet, wtotOf, vcountOf,
    scatterAccum, sumAtQ, List.insertionSort, List.orderedInsert,
    Function.update, List.lookup, List.range, List.range.loop]
  norm_num

/-- `sumAtQ` splits over cons. -/
theorem sumAtQ_cons {ι : Type} [DecidableEq ι] (p : ι × ℚ) (t : List (ι × ℚ))
    (i : ι) : sumAtQ (p :: t) i = (if p.1 = i then p.2 else 0) + sumAtQ t i := by
  unfold sumAtQ
  by_cases hp : p.1 = i
  · rw [List.filter_cons_of_pos (by simpa using hp), if_pos hp]
    simp
  · rw [List.filter_cons_of_neg (by simpa using hp), if_neg hp, zero_add]

/-- `sumAtQ` splits over append. -/
theorem sumAtQ_append {ι : Type} [DecidableEq ι] (l1 l2 : List (ι × ℚ)) (i : ι) :
    sumAtQ (l1 ++ l2) i = sumAtQ l1 i + sumAtQ l2 i := by
  unfold sumAtQ
  rw [List.filter_append, List.map_append, List.sum_append]

/-- `sumAtQ` vanishes when no pair names the index. -/
theorem sumAtQ_eq_zero {ι : Type} [DecidableEq ι] {l : List (ι × ℚ)} {i : ι}
    (h : ∀ p ∈ l, p.1 ≠ i) : sumAtQ l i = 0 := by
  induction l with
  | nil => rfl
  | cons p t ih =>
    rw [sumAtQ_cons, if_neg (h p (by simp)), zero_add]
    exact ih fun q hq => h q (by simp [hq])

/-- `sumAtQ` is a permutation invariant. -/
theorem sumAtQ_perm {ι : Type} [DecidableEq ι] {l1 l2 : List (ι × ℚ)}
    (hp : l1.Perm l2) (i : ι) : sumAtQ l1 i = sumAtQ l2 i :=
  List.Perm.sum_eq ((hp.filter _).map _)

/-- Pointwise add-at-key leaves a list untouched when the key is absent. -/
theorem map_addAt_id (t : List (ℕ × ℚ)) (v : ℕ) (w : ℚ)
    (h : ∀ r ∈ t, r.1 ≠ v) :
    (t.map fun r => if r.1 = v then (r.1, r.2 + w) else r) = t := by
  induction t with
  | nil => rfl
  | cons q u ih =>
    rw [List.map_cons, if_neg (h q (by simp)), ih fun r hr => h r (by simp [hr])]

/-- `assocAdd` on a cons whose head has a different key. -/
theorem assocAdd_cons_ne (q : ℕ × ℚ) (t : List (ℕ × ℚ)) (v : ℕ) (w : ℚ)
    (hq : q.1 ≠ v) : assocAdd (q :: t) v w = q :: assocAdd t v w := by
  unfold assocAdd
  by_cases hc : v ∈ t.map Prod.fst
  · rw [if_pos (show v ∈ (q :: t).map Prod.fst by simp [hc]), if_pos hc,
      List.map_cons, if_neg hq]
  · have hnc : ¬ v ∈ (q :: t).map Prod.fst := by
      simp only [List.map_cons, List.mem_cons]
      rintro (h | h)
      · exact hq h.symm
      · exact hc h
    rw [if_neg hnc, if_neg hc, List.cons_append]

/-- `assocAdd` adds `w` to the total at key `v` and leaves other totals
unchanged, provided the keys are distinct. -/
theorem assocAdd_sumAt (acc : List (ℕ × ℚ)) (v : ℕ) (w : ℚ) (i : ℕ)
    (hnd : (acc.map Prod.fst).Nodup) :
    sumAtQ (assocAdd acc v w) i = sumAtQ acc i + if v = i then w else 0 := by
  induction acc with
  | nil =>
    unfold assocAdd
    rw [if_neg (by simp), List.nil_append, sumAtQ_cons]
    unfold sumAtQ
    simp only [List.filter_nil, List.map_nil, List.sum_nil, add_zero, zero_add]
  | cons q t ih =>
    rw [List.map_cons, List.nodup_cons] at hnd
    by_cases hq : q.1 = v
    · have hcont : v ∈ (q :: t).map Prod.fst := by simp [hq.symm]
      unfold assocAdd
      rw [if_pos hcont, List.map_cons, if_pos hq]
      have hmapid : (t.map fun r => if r.1 = v then (r.1, r.2 + w) else r) = t := by
        apply map_addAt_id
        intro r hr hrv
        apply hnd.1
        have hm := List.mem_map_of_mem Prod.fst hr
        rw [hrv, ← hq] at hm
        exact hm
      rw [hmapid, sumAtQ_cons, sumAtQ_cons]
      by_cases hi : q.1 = i
      · rw [if_pos hi, if_pos hi, if_pos (by rw [← hq]; exact hi)]
        ring
      · rw [if_neg hi, if_neg hi, if_neg (by rw [← hq]; exact hi)]
        ring
    · rw [assocAdd_cons_ne q t v w hq, sumAtQ_cons, sumAtQ_cons, ih hnd.2]
      ring

/-- `assocAdd` keeps keys distinct. -/
theorem assocAdd_nodup (acc : List (ℕ × ℚ)) (v : ℕ) (w : ℚ)
    (hnd : (acc.map Prod.fst).Nodup) :
    ((assocAdd acc v w).map Prod.fst).Nodup := by
  unfold assocAdd
  by_cases hc : v ∈ acc.map Prod.fst
  · rw [if_pos hc]
    have heq : ((acc.map fun q => if q.1 = v then (q.1, q.2 + w) else q).map Prod.fst) =
        acc.map Prod.fst := by
      rw [List.map_map]
      apply List.map_congr_left
      intro p _
      by_cases hp : p.1 = v
      · simp [hp]
      · simp [hp]
    rw [heq]
    exact hnd
  · rw [if_neg hc]
    simp only [List.map_append, List.map_cons, List.map_nil]
    have hperm : ((acc.map Prod.fst) ++ [v]).Perm (v :: acc.map Prod.fst) :=
      List.perm_append_singleton v _
    rw [hperm.nodup_iff, List.nodup_cons]
    exact ⟨hc, hnd⟩

/-- The merge loop over a bone's group: the total stored at `i` is the sum
of the normalized raw weights naming `i`, and keys stay distinct. -/
theorem mergeFold_spec (vgroup : List (ℕ × ℚ)) (wtot : ℕ → ℚ) :
    ∀ acc : List (ℕ × ℚ), (acc.map Prod.fst).Nodup →
      (((vgroup.foldl (fun acc p => assocAdd acc p.1 (p.2 / wtot p.1)) acc).map
          Prod.fst).Nodup ∧
        ∀ i, sumAtQ (vgroup.foldl (fun acc p => assocAdd acc p.1 (p.2 / wtot p.1)) acc) i =
          sumAtQ acc i + ((vgroup.filter fun p => p.1 = i).map
            fun p => p.2 / wtot p.1).sum) := by
  induction vgroup with
  | nil =>
    intro acc hnd
    refine ⟨hnd, fun i => ?_⟩
    simp
  | cons p t ih =>
    intro acc hnd
    rw [List.foldl_cons]
    obtain ⟨ihnd, ihsum⟩ := ih (assocAdd acc p.1 (p.2 / wtot p.1))
      (assocAdd_nodup acc p.1 (p.2 / wtot p.1) hnd)
    refine ⟨ihnd, fun i => ?_⟩
    rw [ihsum i, assocAdd_sumAt acc p.1 (p.2 / wtot p.1) i hnd]
    by_cases hp : p.1 = i
    · rw [List.filter_cons_of_pos (by simpa using hp), List.map_cons,
        List.sum_cons, if_pos hp]
      ring
    · rw [List.filter_cons_of_neg (by simpa using hp), if_neg hp]
      ring

/-- A sum of terms `f x / c` is the sum of `f x` divided by `c`. -/
theorem sum_map_div {α : Type} (l : List α) (f : α → ℚ) (c : ℚ) :
    (l.map fun x => f x / c).sum = (l.map f).sum / c := by
  induction l with
  | nil => simp
  | cons x t ih =>
    simp only [List.map_cons, List.sum_cons, ih]
    rw [add_div]

/-- A filter on indices finds nothing when the index is absent. -/
theorem filter_fst_eq_nil {ι : Type} [DecidableEq ι] {l : List (ι × ℚ)} {i : ι}
    (h : i ∉ l.map Prod.fst) : l.filter (fun p => p.1 = i) = [] := by
  rw [List.filter_eq_nil_iff]
  intro p hp hpi
  simp only [decide_eq_true_eq] at hpi
  exact h (hpi ▸ List.mem_map_of_mem Prod.fst hp)

/-- Pruning small weights from a keys-distinct list keeps the per-index sum
exactly when it clears the threshold and zeroes it otherwise. -/
theorem sumAtQ_filter_thresh {l : List (ℕ × ℚ)} (c : ℚ) (i : ℕ)
    (hnd : (l.map Prod.fst).Nodup) :
    sumAtQ (l.filter fun p => c < p.2) i =
      if c < sumAtQ l i then sumAtQ l i else 0 := by
  induction l with
  | nil =>
    simp only [List.filter_nil]
    unfold sumAtQ
    simp only [List.filter_nil, List.map_nil, List.sum_nil, ite_self]
  | cons p t ih =>
    rw [List.map_cons, List.nodup_cons] at hnd
    by_cases hp : p.1 = i
    · have hto : sumAtQ t i = 0 := by
        unfold sumAtQ
        rw [filter_fst_eq_nil (by rw [← hp]; exact hnd.1)]
        simp
      have htf : sumAtQ (t.filter fun p => c < p.2) i = 0 := by
        unfold sumAtQ
        rw [List.filter_comm, filter_fst_eq_nil (by rw [← hp]; exact hnd.1)]
        simp
      rw [sumAtQ_cons, if_pos hp, hto, add_zero]
      by_cases hk : c < p.2
      · rw [List.filter_cons_of_pos (by simpa using hk), sumAtQ_cons, if_pos hp,
          htf, add_zero, if_pos hk]
      · rw [List.filter_cons_of_neg (by simpa using hk), htf, if_neg hk]
    · rw [sumAtQ_cons, if_neg hp, zero_add]
      by_cases hk : c < p.2
      · rw [List.filter_cons_of_pos (by simpa using hk), sumAtQ_cons, if_neg hp,
          zero_add, ih hnd.2]
      · rw [List.filter_cons_of_neg (by simpa using hk), ih hnd.2]

/-- Per-bone entry: the stored weight at `i` is the merged raw weight at `i`
normalized by `wtot i`, thresholded at 1e-4; and the entry's keys are
distinct. -/
theorem buildBoneEntry_spec (wtot : ℕ → ℚ) (vgroup : List (ℕ × ℚ)) (i : ℕ) :
    sumAtQ (buildBoneEntry wtot vgroup) i =
      (if 1/10000 < sumAtQ vgroup i / wtot i then sumAtQ vgroup i / wtot i else 0) ∧
    ((buildBoneEntry wtot vgroup).map Prod.fst).Nodup := by
  obtain ⟨hnd, hsum⟩ := mergeFold_spec vgroup wtot [] (by simp)
  have hperm : (List.insertionSort (fun a b => a.1 ≤ b.1)
      (vgroup.foldl (fun acc p => assocAdd acc p.1 (p.2 / wtot p.1)) [])).Perm
      (vgroup.foldl (fun acc p => assocAdd acc p.1 (p.2 / wtot p.1)) []) :=
    List.perm_insertionSort _ _
  have hnds : ((List.insertionSort (fun a b => a.1 ≤ b.1)
      (vgroup.foldl (fun acc p => assocAdd acc p.1 (p.2 / wtot p.1)) [])).map
        Prod.fst).Nodup := by
    rw [(hperm.map Prod.fst).nodup_iff]
    exact hnd
  have hval : ∀ j, sumAtQ (List.insertionSort (fun a b => a.1 ≤ b.1)
      (vgroup.foldl (fun acc p => assocAdd acc p.1 (p.2 / wtot p.1)) [])) j =
        sumAtQ vgroup j / wtot j := by
    intro j
    rw [sumAtQ_perm hperm, hsum j]
    have h1 : ((vgroup.filter fun p => p.1 = j).map fun p => p.2 / wtot p.1) =
        ((vgroup.filter fun p => p.1 = j).map Prod.snd).map fun x => x / wtot j := by
      rw [List.map_map]
      apply List.map_congr_left
      intro p hp
      have hpj := List.of_mem_filter hp
      simp only [decide_eq_true_eq] at hpj
      simp [Function.comp, hpj]
    rw [h1, sum_map_div]
    unfold sumAtQ
    simp [-List.map_map]
  constructor
  · unfold buildBoneEntry
    rw [sumAtQ_filter_thresh (1/10000) i hnds, hval i]
  · unfold buildBoneEntry
    have hsub : ((List.insertionSort (fun a b => a.1 ≤ b.1)
        (vgroup.foldl (fun acc p => assocAdd acc p.1 (p.2 / wtot p.1)) [])).filter
          fun p => 1/10000 < p.2).Sublist
        (List.insertionSort (fun a b => a.1 ≤ b.1)
          (vgroup.foldl (fun acc p => assocAdd acc p.1 (p.2 / wtot p.1)) [])) :=
      List.filter_sublist _
    exact (hsub.map Prod.fst).nodup hnds

/-- The bone loop in closed form: one processed entry per bone with a
nonempty group, in input order. -/
theorem buildBoneWeights_eq (data : WeightsInput) (wtot : ℕ → ℚ) :
    buildBoneWeights data wtot =
      (data.filter fun bg => ¬ bg.2 = []).map
        fun bg => (bg.1, buildBoneEntry wtot bg.2) := by
  unfold buildBoneWeights
  suffices H : ∀ acc, data.foldl
      (fun acc bg =>
        if bg.2 = [] then acc else acc ++ [(bg.1, buildBoneEntry wtot bg.2)]) acc =
      acc ++ (data.filter fun bg => ¬ bg.2 = []).map
        (fun bg => (bg.1, buildBoneEntry wtot bg.2)) by
    simpa using H []
  induction data with
  | nil => intro acc; simp
  | cons bg rest ih =>
    intro acc
    rw [List.foldl_cons]
    by_cases hbg : bg.2 = []
    · rw [if_pos hbg, List.filter_cons_of_neg (by simpa using hbg), ih]
    · rw [if_neg hbg, List.filter_cons_of_pos (by simpa using hbg),
        List.map_cons, ih]
      simp

/-- `storedSum` splits over append. -/
theorem storedSum_append (l1 l2 : WeightsInput) (v : ℕ) :
    storedSum (l1 ++ l2) v = storedSum l1 v + storedSum l2 v := by
  unfold storedSum
  rw [List.map_append, List.sum_append]

/-- `storedSum` splits over cons. -/
theorem storedSum_cons (q : String × List (ℕ × ℚ)) (t : WeightsInput) (v : ℕ) :
    storedSum (q :: t) v = sumAtQ q.2 v + storedSum t v := by
  unfold storedSum
  rw [List.map_cons, List.sum_cons]

/-- The processed structure's keys are (a sublist of) the input bone names,
hence distinct when the input names are. -/
theorem buildBoneWeights_keys_nodup (data : WeightsInput) (wtot : ℕ → ℚ)
    (hdk : (data.map Prod.fst).Nodup) :
    ((buildBoneWeights data wtot).map Prod.fst).Nodup := by
  rw [buildBoneWeights_eq, List.map_map]
  have heq : ((data.filter fun bg => ¬ bg.2 = []).map
      (Prod.fst ∘ fun bg => (bg.1, buildBoneEntry wtot bg.2))) =
      (data.filter fun bg => ¬ bg.2 = []).map Prod.fst := by
    apply List.map_congr_left
    intro bg _
    rfl
  rw [heq]
  have hsub : ((data.filter fun bg => ¬ bg.2 = []) : WeightsInput).Sublist data :=
    List.filter_sublist _
  exact hdk.sublist (hsub.map Prod.fst)

/-- Pointwise set-at-key leaves a list untouched when the key is absent. -/
theorem map_setAt_id (t : WeightsInput) (k : String) (v : List (ℕ × ℚ))
    (h : ∀ r ∈ t, r.1 ≠ k) :
    (t.map fun r => if r.1 = k then (k, v) else r) = t := by
  induction t with
  | nil => rfl
  | cons q u ih =>
    rw [List.map_cons, if_neg (h q (by simp)), ih fun r hr => h r (by simp [hr])]

/-- `assocSet` on a cons whose head has a different key. -/
theorem assocSet_cons_ne (q : String × List (ℕ × ℚ)) (t : WeightsInput)
    (k : String) (v : List (ℕ × ℚ)) (hq : q.1 ≠ k) :
    assocSet (q :: t) k v = q :: assocSet t k v := by
  unfold assocSet
  by_cases hc : k ∈ t.map Prod.fst
  · rw [if_pos (show k ∈ (q :: t).map Prod.fst by simp [hc]), if_pos hc,
      List.map_cons, if_neg hq]
  · have hnc : ¬ k ∈ (q :: t).map Prod.fst := by
      simp only [List.map_cons, List.mem_cons]
      rintro (h | h)
      · exact hq h.symm
      · exact hc h
    rw [if_neg hnc, if_neg hc, List.cons_append]

/-- Replacing the entry at a key changes `storedSum` by swapping the old
value for the new one (keys distinct). -/
theorem storedSum_assocSet (l : WeightsInput) (k : String) (v : List (ℕ × ℚ))
    (i : ℕ) (hnd : (l.map Prod.fst).Nodup) :
    storedSum (assocSet l k v) i =
      storedSum l i - sumAtQ ((l.lookup k).getD []) i + sumAtQ v i := by
  induction l with
  | nil =>
    unfold assocSet
    rw [if_neg (by simp), List.nil_append, storedSum_cons]
    unfold storedSum sumAtQ
    simp [List.lookup]
  | cons q t ih =>
    rw [List.map_cons, List.nodup_cons] at hnd
    by_cases hq : q.1 = k
    · have hcont : k ∈ (q :: t).map Prod.fst := by simp [hq.symm]
      unfold assocSet
      rw [if_pos hcont, List.map_cons, if_pos hq]
      have hmapid : (t.map fun r => if r.1 = k then (k, v) else r) = t := by
        apply map_setAt_id
        intro r hr hrk
        apply hnd.1
        have hm := List.mem_map_of_mem Prod.fst hr
        rw [hrk, ← hq] at hm
        exact hm
      rw [hmapid, storedSum_cons, storedSum_cons]
      have hlk : (q :: t).lookup k = some q.2 := by
        rw [List.lookup]
        rw [show (k == q.1) = true by simp [hq.symm]]
      rw [hlk]
      simp only [Option.getD_some]
      ring
    · rw [assocSet_cons_ne q t k v hq, storedSum_cons, storedSum_cons]
      have hlk : (q :: t).lookup k = t.lookup k := by
        rw [List.lookup]
        rw [show (k == q.1) = false by simpa using Ne.symm hq]
      rw [hlk, ih hnd.2]
      ring

/-- Setting a key makes it look up to the new value. -/
theorem assocSet_lookup (l : WeightsInput) (k : String) (v : List (ℕ × ℚ)) :
    (assocSet l k v).lookup k = some v := by
  induction l with
  | nil =>
    unfold assocSet
    rw [if_neg (by simp), List.nil_append, List.lookup]
    rw [show (k == k) = true by simp]
  | cons q t ih =>
    by_cases hq : q.1 = k
    · have hcont : k ∈ (q :: t).map Prod.fst := by simp [hq.symm]
      unfold assocSet
      rw [if_pos hcont, List.map_cons, if_pos hq, List.lookup]
      rw [show (k == k) = true by simp]
    · rw [assocSet_cons_ne q t k v hq, List.lookup]
      rw [show (k == q.1) = false by simpa using Ne.symm hq]
      exact ih

/-- The accumulated `wtot` at a vertex is the sum of every bone's raw
weights at that vertex. -/
theorem wtotOf_eq_sum (data : WeightsInput) (v : ℕ) :
    wtotOf data v = (data.map fun bg => sumAtQ bg.2 v).sum := by
  unfold wtotOf
  suffices H : ∀ acc : ℕ → ℚ,
      (data.foldl (fun acc bg => scatterAccum acc bg.2) acc) v =
        acc v + (data.map fun bg => sumAtQ bg.2 v).sum by
    simpa using H fun _ => 0
  induction data with
  | nil => intro acc; simp
  | cons bg rest ih =>
    intro acc
    rw [List.foldl_cons, ih (scatterAccum acc bg.2), scatterAccum_apply,
      List.map_cons, List.sum_cons]
    ring

/-- A sum over a filtered list equals the full sum when the dropped terms
vanish. -/
theorem sum_filter_of_vanish {α : Type} (l : List α) (P : α → Prop)
    [DecidablePred P] (f : α → ℚ) (h : ∀ x ∈ l, ¬ P x → f x = 0) :
    ((l.filter P).map f).sum = (l.map f).sum := by
  induction l with
  | nil => rfl
  | cons x t ih =>
    have ht := ih fun y hy => h y (by simp [hy])
    by_cases hx : P x
    · rw [List.filter_cons_of_pos (by simpa using hx), List.map_cons,
        List.sum_cons, List.map_cons, List.sum_cons, ht]
    · rw [List.filter_cons_of_neg (by simpa using hx), List.map_cons,
        List.sum_cons, h x (by simp) hx, zero_add, ht]

/-- C5 amended: with distinct bone names, non-negative raw weights and a
positive raw total at vertex `v`, the stored per-vertex sum equals 1
provided every bone's merged normalized share at `v` is either zero or
clears the 1e-4 pruning threshold (without that proviso pruning loses the
small shares, as the counterexample shows); and every vertex below the
vertex count with zero raw total appears in the root bone's entry with
weight 1. -/
theorem buildVertexWeights_spec (data : WeightsInput) (vc : Option ℕ)
    (root : String) (v : ℕ)
    (hnn : ∀ bg ∈ data, ∀ p ∈ bg.2, 0 ≤ p.2)
    (hdk : (data.map Prod.fst).Nodup)
    (hpos : wtotOf data v ≠ 0)
    (hth : ∀ bg ∈ data,
      sumAtQ bg.2 v = 0 ∨ 1/10000 < sumAtQ bg.2 v / wtotOf data v) :
    storedSum (buildVertexWeights data vc root) v = 1 ∧
    ∀ u, u < vcountOf data vc → wtotOf data u = 0 →
      (u, (1:ℚ)) ∈ ((buildVertexWeights data vc root).lookup root).getD [] := by
  have hbw : storedSum (buildBoneWeights data (wtotOf data)) v = 1 := by
    rw [buildBoneWeights_eq]
    unfold storedSum
    rw [List.map_map]
    have h1 : ((data.filter fun bg => ¬ bg.2 = []).map
        ((fun bg => sumAtQ bg.2 v) ∘ fun bg => (bg.1, buildBoneEntry (wtotOf data) bg.2))) =
        (data.filter fun bg => ¬ bg.2 = []).map
          fun bg => sumAtQ bg.2 v / wtotOf data v := by
      apply List.map_congr_left
      intro bg hbg
      have hmem : bg ∈ data := List.mem_of_mem_filter hbg
      have hspec := (buildBoneEntry_spec (wtotOf data) bg.2 v).1
      show sumAtQ (buildBoneEntry (wtotOf data) bg.2) v = _
      rw [hspec]
      rcases hth bg hmem with hz | hgt
      · rw [hz, zero_div]
        simp
      · rw [if_pos hgt]
    rw [h1]
    rw [sum_filter_of_vanish data (fun bg => ¬ bg.2 = [])
      (fun bg => sumAtQ bg.2 v / wtotOf data v)
      (by intro bg _ hbge
          rw [not_not] at hbge
          show sumAtQ bg.2 v / wtotOf data v = 0
          rw [hbge]
          unfold sumAtQ
          simp)]
    rw [sum_map_div, ← wtotOf_eq_sum]
    exact div_self hpos
  have hkeys := buildBoneWeights_keys_nodup data (wtotOf data) hdk
  constructor
  · unfold buildVertexWeights rootFix
    by_cases hvs : rootBase (buildBoneWeights data (wtotOf data)) root ++
        (zeroWeightVerts (wtotOf data) (vcountOf data vc)).map
          (fun v => (v, (1 : ℚ))) = []
    · rw [if_pos hvs]
      exact hbw
    · rw [if_neg hvs]
      rw [storedSum_assocSet _ _ _ _ hkeys]
      have hbase : ((buildBoneWeights data (wtotOf data)).lookup root).getD [] =
          rootBase (buildBoneWeights data (wtotOf data)) root := by
        unfold rootBase
        cases (buildBoneWeights data (wtotOf data)).lookup root with
        | none => rfl
        | some l => rfl
      have hextras : sumAtQ ((zeroWeightVerts (wtotOf data) (vcountOf data vc)).map
          (fun v => (v, (1 : ℚ)))) v = 0 := by
        apply sumAtQ_eq_zero
        intro p hp
        rcases List.mem_map.1 hp with ⟨u, hu, rfl⟩
        have hu0 : wtotOf data u = 0 := by
          have := List.of_mem_filter hu
          simpa using this
        intro huv
        exact hpos (by rw [← huv]; exact hu0)
      rw [sumAtQ_append, hextras, hbase, hbw]
      ring
  · intro u hu hw0
    unfold buildVertexWeights rootFix
    have hmemrw : u ∈ zeroWeightVerts (wtotOf data) (vcountOf data vc) := by
      unfold zeroWeightVerts
      rw [List.mem_filter]
      exact ⟨List.mem_range.2 hu, by simpa using hw0⟩
    have hmemvs : (u, (1:ℚ)) ∈ rootBase (buildBoneWeights data (wtotOf data)) root ++
        (zeroWeightVerts (wtotOf data) (vcountOf data vc)).map
          (fun v => (v, (1 : ℚ))) :=
      List.mem_append_right _ (List.mem_map_of_mem _ hmemrw)
    rw [if_neg (List.ne_nil_of_mem hmemvs)]
    rw [assocSet_lookup]
    simpa using hmemvs

/-- Witness for C5's amended theorem: two bones sharing vertex 0 with raw
weights 1/2 each, and vertex 1 with zero total weight. -/
theorem buildVertexWeights_spec_witness :
    storedSum (buildVertexWeights
        [("a", [(0, 1/2), (1, 0)]), ("b", [(0, 1/2)])] none "root") 0 = 1 ∧
    ∀ u, u < vcountOf [("a", [(0, 1/2), (1, 0)]), ("b", [(0, 1/2)])] none →
      wtotOf [("a", [(0, 1/2), (1, 0)]), ("b", [(0, 1/2)])] u = 0 →
      (u, (1:ℚ)) ∈ ((buildVertexWeights
        [("a", [(0, 1/2), (1, 0)]), ("b", [(0, 1/2)])] none "root").lookup
          "root").getD [] :=
  buildVertexWeights_spec [("a", [(0, 1/2), (1, 0)]), ("b", [(0, 1/2)])] none
    "root" 0
    (by intro bg hbg p hp
        simp only [List.mem_cons, List.not_mem_nil, or_false] at hbg
        rcases hbg with rfl | rfl
        · simp only [List.mem_cons, List.not_mem_nil, or_false] at hp
          rcases hp with rfl | rfl <;> norm_num
        · simp only [List.mem_cons, List.not_mem_nil, or_false] at hp
          subst hp
          norm_num)
    (by decide)
    (by norm_num [wtotOf, scatterAccum, Function.update])
    (by norm_num [sumAtQ, wtotOf, scatterAccum, Function.update])

/-! ## Weight retargeting (`Skeleton._retarget_weights`, mh_skeleton.py) -/

/-- The per-bone fields read by `_retarget_weights`. -/
structure RBone where
  name : String
  reference_bones : List String
  weight_reference_bones : List String

/-- The effective reference list: explicit weight references if present,
else the standard references (`refs = bone._weight_reference_bones;
if not refs and bone.reference_bones: refs = bone.reference_bones`). -/
def effRefs (b : RBone) : List String :=
  if b.weight_reference_bones = [] then b.reference_bones
  else b.weight_reference_bones

/-- Collect weights from all referenced bones, summed per vertex in a
Python dict (`combined_verts`); referenced bones absent from the source are
skipped. -/
def combineRefs (src : WeightsInput) (refs : List String) : List (ℕ × ℚ) :=
  refs.foldl
    (fun c r =>
      match src.lookup r with
      | none => c
      | some l => l.foldl (fun c2 p => assocAdd c2 p.1 p.2) c)
    []

/-- The pair ordering used for `np.argsort` on vertex indices. -/
def leFst (x y : ℕ × ℚ) : Prop := x.1 ≤ y.1

instance : DecidableRel leFst := fun x y => inferInstanceAs (Decidable (x.1 ≤ y.1))

instance : IsTotal (ℕ × ℚ) leFst := ⟨fun a b => le_total a.1 b.1⟩

instance : IsTrans (ℕ × ℚ) leFst := ⟨fun _ _ _ h1 h2 => le_trans h1 h2⟩

/-- The main loop of `_retarget_weights`: bones with references get the
merged, index-sorted union of the referenced weight lists (when nonempty);
bones without references keep their direct weights when present in the
source set. -/
def retargetLoop (bones : List RBone) (src : WeightsInput) : WeightsInput :=
  bones.foldl
    (fun acc b =>
      if effRefs b = [] then
        if b.name ∈ src.map Prod.fst then
          acc ++ [(b.name, (src.lookup b.name).getD [])]
        else acc
      else
        if combineRefs src (effRefs b) = [] then acc
        else acc ++ [(b.name, List.insertionSort leFst (combineRefs src (effRefs b)))])
    []

/-- The fixed supplementary mapping table absorbing helper/orphan bones
(mh_skeleton.py, lines 406-419). -/
def extraMapping : List (String × List String) :=
  [("clavicle_l", ["scapula.L", "trapezius.L"]),
   ("clavicle_r", ["scapula.R", "trapezius.R"]),
   ("upperarm_l", ["deltoid.L"]),
   ("upperarm_r", ["deltoid.R"]),
   ("spine_03", ["latissimus.L", "latissimus.R", "pectoralis.L", "pectoralis.R"]),
   ("pelvis", ["gluteus.L", "gluteus.R"]),
   ("head", ["jaw", "eye.L", "eye.R", "tongue01", "tongue02", "tongue03",
     "tongue04", "upperlid.L", "upperlid.R", "lowerlid.L", "lowerlid.R"])]

/-- One cleanup step: when the target bone exists in the source weights and
some helper source is present, merge the helpers' weights into the target's
current entry and store the index-sorted result. -/
def cleanupStep (src : WeightsInput) (nw : WeightsInput)
    (entry : String × List String) : WeightsInput :=
  if entry.1 ∈ src.map Prod.fst then
    if entry.2.any (fun s => s ∈ src.map Prod.fst) then
      assocSet nw entry.1
        (List.insertionSort leFst
          (entry.2.foldl
            (fun c s =>
              match src.lookup s with
              | none => c
              | some l => l.foldl (fun c2 p => assocAdd c2 p.1 p.2) c)
            ((nw.lookup entry.1).getD [])))
    else nw
  else nw

/-- `Skeleton._retarget_weights` (mh_skeleton.py, lines 349-450): the main
loop, followed by the supplementary cleanup when any bone declared
references. -/
def retarget (bones : List RBone) (src : WeightsInput) : WeightsInput :=
  if bones.any (fun b => ¬ effRefs b = []) then
    extraMapping.foldl (cleanupStep src) (retargetLoop bones src)
  else retargetLoop bones src

/-- The stored weight of a named bone at a vertex (0 when the bone has no
entry). -/
def weightOf (w : WeightsInput) (bname : String) (v : ℕ) : ℚ :=
  sumAtQ ((w.lookup bname).getD []) v

/-- C6 counterexample: bone `head` declares reference `href`, but because
`head` exists in the source weights the supplementary cleanup also absorbs
`jaw`, so the final per-vertex weight is not the sum over the declared
references alone. -/
theorem retarget_refs_counterexample :
    weightOf (retarget [⟨"head", ["href"], []⟩]
        [("href", [(0, 1/2)]), ("head", [(0, 1/4)]), ("jaw", [(1, 1/3)])])
        "head" 1 ≠
      ((effRefs ⟨"head", ["href"], []⟩).map fun r =>
        weightOf [("href", [(0, 1/2)]), ("head", [(0, 1/4)]), ("jaw", [(1, 1/3)])]
          r 1).sum := by
  simp [retarget, retargetLoop, cleanupStep, combineRefs, effRefs, weightOf,
    extraMapping, assocAdd, assocSet, sumAtQ, List.insertionSort,
    List.orderedInsert, List.lookup, leFst]

/-- A fold of plain inserts-or-adds: keys stay distinct and the per-index
total is the sum of the inserted values naming that index. -/
theorem assocAddFold_spec (l : List (ℕ × ℚ)) (f : ℕ × ℚ → ℚ) :
    ∀ acc : List (ℕ × ℚ), (acc.map Prod.fst).Nodup →
      (((l.foldl (fun acc p => assocAdd acc p.1 (f p)) acc).map Prod.fst).Nodup ∧
        ∀ i, sumAtQ (l.foldl (fun acc p => assocAdd acc p.1 (f p)) acc) i =
          sumAtQ acc i + ((l.filter fun p => p.1 = i).map f).sum) := by
  induction l with
  | nil =>
    intro acc hnd
    refine ⟨hnd, fun i => ?_⟩
    simp
  | cons p t ih =>
    intro acc hnd
    rw [List.foldl_cons]
    obtain ⟨ihnd, ihsum⟩ := ih (assocAdd acc p.1 (f p))
      (assocAdd_nodup acc p.1 (f p) hnd)
    refine ⟨ihnd, fun i => ?_⟩
    rw [ihsum i, assocAdd_sumAt acc p.1 (f p) i hnd]
    by_cases hp : p.1 = i
    · rw [List.filter_cons_of_pos (by simpa using hp), List.map_cons,
        List.sum_cons, if_pos hp]
      ring
    · rw [List.filter_cons_of_neg (by simpa using hp), if_neg hp]
      ring

/-- An absent key looks up to nothing. -/
theorem lookup_none_of_not_mem {α β : Type} [BEq α] [LawfulBEq α]
    {l : List (α × β)} {k : α} (h : k ∉ l.map Prod.fst) :
    l.lookup k = none := by
  induction l with
  | nil => rfl
  | cons q t ih =>
    rw [List.lookup]
    have hk : (k == q.1) = false := by
      simp only [beq_eq_false_iff_ne]
      intro hkq
      exact h (by rw [hkq]; simp)
    rw [hk]
    exact ih fun hm => h (by simp [hm])

/-- A present key looks up to something. -/
theorem lookup_isSome_of_mem {α β : Type} [BEq α] [LawfulBEq α]
    {l : List (α × β)} {k : α} (h : k ∈ l.map Prod.fst) :
    ∃ v, l.lookup k = some v := by
  induction l with
  | nil => simp at h
  | cons q t ih =>
    rw [List.lookup]
    by_cases hk : k = q.1
    · rw [show (k == q.1) = true by simpa using hk]
      exact ⟨q.2, rfl⟩
    · rw [show (k == q.1) = false by simpa using hk]
      apply ih
      rcases (by simpa using h : k = q.1 ∨ k ∈ t.map Prod.fst) with h1 | h1
      · exact absurd h1 hk
      · exact h1

/-- `combineRefs` sums the referenced bones' stored weights per vertex and
keeps keys distinct. -/
theorem combineRefs_spec (src : WeightsInput) (refs : List String) :
    ((combineRefs src refs).map Prod.fst).Nodup ∧
      ∀ v, sumAtQ (combineRefs src refs) v =
        (refs.map fun r => weightOf src r v).sum := by
  unfold combineRefs
  suffices H : ∀ acc : List (ℕ × ℚ), (acc.map Prod.fst).Nodup →
      (((refs.foldl (fun c r =>
          match src.lookup r with
          | none => c
          | some l => l.foldl (fun c2 p => assocAdd c2 p.1 p.2) c) acc).map
            Prod.fst).Nodup ∧
        ∀ v, sumAtQ (refs.foldl (fun c r =>
          match src.lookup r with
          | none => c
          | some l => l.foldl (fun c2 p => assocAdd c2 p.1 p.2) c) acc) v =
          sumAtQ acc v + (refs.map fun r => weightOf src r v).sum) by
    obtain ⟨h1, h2⟩ := H [] (by simp)
    refine ⟨h1, fun v => ?_⟩
    rw [h2 v]
    unfold sumAtQ
    simp
  induction refs with
  | nil =>
    intro acc hnd
    refine ⟨hnd, fun v => ?_⟩
    simp
  | cons r rest ih =>
    intro acc hnd
    rw [List.foldl_cons]
    cases hr : src.lookup r with
    | none =>
      obtain ⟨h1, h2⟩ := ih acc hnd
      refine ⟨h1, fun v => ?_⟩
      rw [h2 v, List.map_cons, List.sum_cons]
      unfold weightOf
      rw [hr]
      unfold sumAtQ
      simp only [Option.getD_none, List.filter_nil, List.map_nil, List.sum_nil]
      ring
    | some l =>
      obtain ⟨hnd2, hsum2⟩ := assocAddFold_spec l (fun p => p.2) acc hnd
      obtain ⟨h1, h2⟩ := ih (l.foldl (fun c2 p => assocAdd c2 p.1 p.2) acc) hnd2
      refine ⟨h1, fun v => ?_⟩
      rw [h2 v, hsum2 v, List.map_cons, List.sum_cons]
      unfold weightOf
      rw [hr]
      unfold sumAtQ
      simp only [Option.getD_some]
      ring

/-- The per-bone result of the retargeting loop. -/
def loopEntry (src : WeightsInput) (b : RBone) :
    Option (String × List (ℕ × ℚ)) :=
  if effRefs b = [] then
    if b.name ∈ src.map Prod.fst then some (b.name, (src.lookup b.name).getD [])
    else none
  else
    if combineRefs src (effRefs b) = [] then none
    else some (b.name, List.insertionSort leFst (combineRefs src (effRefs b)))

/-- The retargeting loop in closed form. -/
theorem retargetLoop_eq (bones : List RBone) (src : WeightsInput) :
    retargetLoop bones src = bones.filterMap (loopEntry src) := by
  unfold retargetLoop
  suffices H : ∀ acc, bones.foldl
      (fun acc b =>
        if effRefs b = [] then
          if b.name ∈ src.map Prod.fst then
            acc ++ [(b.name, (src.lookup b.name).getD [])]
          else acc
        else
          if combineRefs src (effRefs b) = [] then acc
          else acc ++ [(b.name,
            List.insertionSort leFst (combineRefs src (effRefs b)))]) acc =
      acc ++ bones.filterMap (loopEntry src) by
    simpa using H []
  induction bones with
  | nil => intro acc; simp
  | cons b rest ih =>
    intro acc
    rw [List.foldl_cons, List.filterMap_cons]
    by_cases h1 : effRefs b = []
    · by_cases h2 : b.name ∈ src.map Prod.fst
      · have hle : loopEntry src b = some (b.name, (src.lookup b.name).getD []) := by
          unfold loopEntry
          rw [if_pos h1, if_pos h2]
        rw [if_pos h1, if_pos h2, hle, ih]
        simp
      · have hle : loopEntry src b = none := by
          unfold loopEntry
          rw [if_pos h1, if_neg h2]
        rw [if_pos h1, if_neg h2, hle, ih]
    · by_cases h2 : combineRefs src (effRefs b) = []
      · have hle : loopEntry src b = none := by
          unfold loopEntry
          rw [if_neg h1, if_pos h2]
        rw [if_neg h1, if_pos h2, hle, ih]
      · have hle : loopEntry src b =
            some (b.name, List.insertionSort leFst (combineRefs src (effRefs b))) := by
          unfold loopEntry
          rw [if_neg h1, if_neg h2]
        rw [if_neg h1, if_neg h2, hle, ih]
        simp

/-- A produced loop entry is keyed by its bone's name. -/
theorem loopEntry_key (src : WeightsInput) (b : RBone)
    {e : String × List (ℕ × ℚ)} (h : loopEntry src b = some e) :
    e.1 = b.name := by
  unfold loopEntry at h
  by_cases h1 : effRefs b = []
  · rw [if_pos h1] at h
    by_cases h2 : b.name ∈ src.map Prod.fst
    · rw [if_pos h2] at h
      cases h
      rfl
    · rw [if_neg h2] at h
      cases h
  · rw [if_neg h1] at h
    by_cases h2 : combineRefs src (effRefs b) = []
    · rw [if_pos h2] at h
      cases h
    · rw [if_neg h2] at h
      cases h
      rfl

/-- The loop result's keys all come from the bone list. -/
theorem retargetLoop_keys (bones : List RBone) (src : WeightsInput) (k : String)
    (h : k ∈ (bones.filterMap (loopEntry src)).map Prod.fst) :
    k ∈ bones.map RBone.name := by
  rcases List.mem_map.1 h with ⟨e, he, rfl⟩
  rcases List.mem_filterMap.1 he with ⟨b, hb, hbe⟩
  rw [loopEntry_key src b hbe]
  exact List.mem_map_of_mem _ hb

/-- Looking up a bone in the loop result gives exactly its own entry, when
bone names are distinct. -/
theorem retargetLoop_lookup (bones : List RBone) (src : WeightsInput)
    (b : RBone) (hb : b ∈ bones) (hnd : (bones.map RBone.name).Nodup) :
    (retargetLoop bones src).lookup b.name = (loopEntry src b).map Prod.snd := by
  rw [retargetLoop_eq]
  induction bones with
  | nil => cases hb
  | cons b0 rest ih =>
    rw [List.map_cons, List.nodup_cons] at hnd
    rcases List.mem_cons.1 hb with rfl | hbr
    · rw [List.filterMap_cons]
      cases he : loopEntry src b with
      | none =>
        show (List.filterMap (loopEntry src) rest).lookup b.name = none
        apply lookup_none_of_not_mem
        intro hm
        exact hnd.1 (retargetLoop_keys rest src b.name hm)
      | some e =>
        have hk := loopEntry_key src b he
        show List.lookup b.name (e :: List.filterMap (loopEntry src) rest) = some e.2
        rw [List.lookup]
        rw [show (b.name == e.1) = true from by simpa using hk.symm]
    · have hbn : b.name ∈ rest.map RBone.name := List.mem_map_of_mem _ hbr
      have hne : b.name ≠ b0.name := fun h => hnd.1 (h ▸ hbn)
      rw [List.filterMap_cons]
      cases he : loopEntry src b0 with
      | none => exact ih hbr hnd.2
      | some e =>
        have hk0 := loopEntry_key src b0 he
        show List.lookup b.name (e :: List.filterMap (loopEntry src) rest) = _
        rw [List.lookup]
        rw [show (b.name == e.1) = false from by
          simp only [beq_eq_false_iff_ne]
          rw [hk0]
          exact hne]
        exact ih hbr hnd.2

/-- Lookup at another key ignores a pointwise set-at-key. -/
theorem lookup_map_setAt_ne (t : WeightsInput) (k : String) (v : List (ℕ × ℚ))
    (k2 : String) (hne : k2 ≠ k) :
    (t.map fun q => if q.1 = k then (k, v) else q).lookup k2 = t.lookup k2 := by
  induction t with
  | nil => rfl
  | cons q t ih =>
    rw [List.map_cons]
    by_cases hq : q.1 = k
    · rw [if_pos hq]
      show List.lookup k2 ((k, v) :: _) = _
      rw [List.lookup, List.lookup]
      rw [show (k2 == (k, v).1) = false from by simpa using hne,
        show (k2 == q.1) = false from by simpa using (hq ▸ hne : k2 ≠ q.1)]
      exact ih
    · rw [if_neg hq, List.lookup, List.lookup]
      cases hbeq : (k2 == q.1) with
      | true => rfl
      | false => exact ih

/-- Lookup at another key ignores an appended fresh entry. -/
theorem lookup_append_ne (l : WeightsInput) (k : String) (v : List (ℕ × ℚ))
    (k2 : String) (hne : k2 ≠ k) :
    (l ++ [(k, v)]).lookup k2 = l.lookup k2 := by
  induction l with
  | nil =>
    show List.lookup k2 [(k, v)] = none
    rw [List.lookup, show (k2 == k) = false from by simpa using hne]
    rfl
  | cons q t ih =>
    rw [List.cons_append, List.lookup, List.lookup]
    cases hbeq : (k2 == q.1) with
    | true => rfl
    | false => exact ih

/-- `assocSet` at one key does not disturb lookups at another. -/
theorem assocSet_lookup_ne (l : WeightsInput) (k : String) (v : List (ℕ × ℚ))
    (k2 : String) (hne : k2 ≠ k) :
    (assocSet l k v).lookup k2 = l.lookup k2 := by
  unfold assocSet
  by_cases hc : k ∈ l.map Prod.fst
  · rw [if_pos hc]
    exact lookup_map_setAt_ne l k v k2 hne
  · rw [if_neg hc]
    exact lookup_append_ne l k v k2 hne

/-- The supplementary cleanup never disturbs a bone outside its fixed
target table. -/
theorem cleanupFold_lookup (src : WeightsInput)
    (maps : List (String × List String)) (k : String)
    (hk : ∀ e ∈ maps, e.1 ≠ k) :
    ∀ nw, (maps.foldl (cleanupStep src) nw).lookup k = nw.lookup k := by
  induction maps with
  | nil => intro nw; rfl
  | cons e rest ih =>
    intro nw
    rw [List.foldl_cons]
    rw [ih (fun e2 he2 => hk e2 (by simp [he2])) (cleanupStep src nw e)]
    unfold cleanupStep
    by_cases h1 : e.1 ∈ src.map Prod.fst
    · rw [if_pos h1]
      by_cases h2 : e.2.any (fun s => s ∈ src.map Prod.fst)
      · rw [if_pos h2]
        exact assocSet_lookup_ne nw e.1 _ k fun h => hk e (by simp) h.symm
      · rw [if_neg h2]
    · rw [if_neg h1]

/-- Sorting a keys-distinct list by vertex index yields a strictly
increasing index sequence (no duplicates, ascending). -/
theorem sorted_strict_of_nodup (l : List (ℕ × ℚ))
    (hnd : (l.map Prod.fst).Nodup) :
    (List.insertionSort leFst l).Pairwise (fun p q => p.1 < q.1) := by
  have hs : (List.insertionSort leFst l).Pairwise leFst :=
    List.sorted_insertionSort leFst l
  have hn : ((List.insertionSort leFst l).map Prod.fst).Nodup := by
    rw [((List.perm_insertionSort leFst l).map Prod.fst).nodup_iff]
    exact hnd
  rw [List.Nodup, List.pairwise_map] at hn
  exact (hs.and hn).imp fun hab => lt_of_le_of_ne hab.1 hab.2

/-- C6 amended: for a bone outside the fixed helper-mapping table, with
distinct bone names: if it declares references its final per-vertex weight
is the sum of the referenced source bones' weights, and its entry is
strictly sorted by vertex index (hence duplicate-free); without references
it keeps its direct weights when its name is present in the source set.
(Bones named in the helper-mapping table additionally absorb helper-bone
weights, as the counterexample shows.) -/
theorem retarget_spec (bones : List RBone) (src : WeightsInput) (b : RBone)
    (hb : b ∈ bones) (hnd : (bones.map RBone.name).Nodup)
    (hextra : ∀ e ∈ extraMapping, e.1 ≠ b.name) :
    ((¬ effRefs b = []) →
      (∀ v, weightOf (retarget bones src) b.name v =
          ((effRefs b).map fun r => weightOf src r v).sum) ∧
        (((retarget bones src).lookup b.name).getD []).Pairwise
          (fun p q => p.1 < q.1)) ∧
    (effRefs b = [] → b.name ∈ src.map Prod.fst →
      (retarget bones src).lookup b.name = src.lookup b.name) := by
  have hlk : (retarget bones src).lookup b.name =
      (retargetLoop bones src).lookup b.name := by
    unfold retarget
    by_cases hany : bones.any (fun b => ¬ effRefs b = [])
    · rw [if_pos hany]
      exact cleanupFold_lookup src extraMapping b.name hextra _
    · rw [if_neg hany]
  rw [hlk, retargetLoop_lookup bones src b hb hnd]
  obtain ⟨hcnd, hcsum⟩ := combineRefs_spec src (effRefs b)
  constructor
  · intro href
    unfold loopEntry
    rw [if_neg href]
    by_cases hcomb : combineRefs src (effRefs b) = []
    · rw [if_pos hcomb]
      constructor
      · intro v
        unfold weightOf at hcsum ⊢
        rw [hlk, retargetLoop_lookup bones src b hb hnd]
        unfold loopEntry
        rw [if_neg href, if_pos hcomb]
        rw [← hcsum v, hcomb]
        unfold sumAtQ
        simp
      · exact List.Pairwise.nil
    · rw [if_neg hcomb]
      constructor
      · intro v
        unfold weightOf at hcsum ⊢
        rw [hlk, retargetLoop_lookup bones src b hb hnd]
        unfold loopEntry
        rw [if_neg href, if_neg hcomb]
        show sumAtQ (List.insertionSort leFst (combineRefs src (effRefs b))) v = _
        rw [sumAtQ_perm (List.perm_insertionSort leFst _) v]
        exact hcsum v
      · exact sorted_strict_of_nodup _ hcnd
  · intro href hmem
    unfold loopEntry
    rw [if_pos href, if_pos hmem]
    obtain ⟨w, hw⟩ := lookup_isSome_of_mem hmem
    rw [hw]
    rfl

/-- Witness for C6's amended theorem: one referenced bone and one direct
bone on a concrete source weight set. -/
theorem retarget_spec_witness :
    ((¬ effRefs ⟨"boneA", ["r1", "r2"], []⟩ = []) →
      (∀ v, weightOf (retarget
          [⟨"boneA", ["r1", "r2"], []⟩, ⟨"boneB", [], []⟩]
          [("r1", [(0, 1/2)]), ("r2", [(0, 1/2), (1, 1)]), ("boneB", [(2, 1)])])
          "boneA" v =
        ((effRefs ⟨"boneA", ["r1", "r2"], []⟩).map fun r =>
          weightOf [("r1", [(0, 1/2)]), ("r2", [(0, 1/2), (1, 1)]),
            ("boneB", [(2, 1)])] r v).sum) ∧
      (((retarget [⟨"boneA", ["r1", "r2"], []⟩, ⟨"boneB", [], []⟩]
          [("r1", [(0, 1/2)]), ("r2", [(0, 1/2), (1, 1)]), ("boneB", [(2, 1)])]).lookup
            "boneA").getD []).Pairwise (fun p q => p.1 < q.1)) ∧
    (effRefs ⟨"boneA", ["r1", "r2"], []⟩ = [] →
      "boneA" ∈ ([("r1", [(0, 1/2)]), ("r2", [(0, 1/2), (1, 1)]),
        ("boneB", [(2, 1)])] : WeightsInput).map Prod.fst →
      (retarget [⟨"boneA", ["r1", "r2"], []⟩, ⟨"boneB", [], []⟩]
          [("r1", [(0, 1/2)]), ("r2", [(0, 1/2), (1, 1)]), ("boneB", [(2, 1)])]).lookup
        "boneA" =
      ([("r1", [(0, 1/2)]), ("r2", [(0, 1/2), (1, 1)]),
        ("boneB", [(2, 1)])] : WeightsInput).lookup "boneA") :=
  retarget_spec [⟨"boneA", ["r1", "r2"], []⟩, ⟨"boneB", [], []⟩]
    [("r1", [(0, 1/2)]), ("r2", [(0, 1/2), (1, 1)]), ("boneB", [(2, 1)])]
    ⟨"boneA", ["r1", "r2"], []⟩ (by simp) (by decide) (by decide)

/-! ## CCD per-bone update (`IKSolver.solve_ik`, ik_solver.py, lines 207-224)

The rotation application works on real 4x4 matrices; Euclidean norms force
the embedding over ℝ. -/

/-- A 4x4 real matrix. -/
abbrev Mat4R := Matrix (Fin 4) (Fin 4) ℝ

/-- A 3-vector of reals. -/
abbrev V3R := Fin 3 → ℝ

/-- Modelled from the spec: `transformations.unit_vector` (the
`transformations` module is imported by ik_solver.py but absent from the
source tree) — divide a 3-vector by its Euclidean norm. -/
noncomputable def unit_vector (v : V3R) : V3R :=
  fun i => v i / Real.sqrt (v 0 ^ 2 + v 1 ^ 2 + v 2 ^ 2)

/-- Modelled from the spec: `transformations.rotation_matrix(angle, axis)`
— "build a local rotation matrix from (localAxis, angle)" — the Rodrigues
rotation about the normalized axis (`cos·I + (1-cos)·ddᵀ + sin·skew(d)`),
embedded homogeneously with last row and column (0,0,0,1). -/
noncomputable def tm_rotation_matrix (angle : ℝ) (direction : V3R) : Mat4R :=
  let d := unit_vector direction
  let c := Real.cos angle
  let s := Real.sin angle
  Matrix.of
    ![![c + d 0 * d 0 * (1 - c), d 0 * d 1 * (1 - c) - s * d 2,
        d 0 * d 2 * (1 - c) + s * d 1, 0],
      ![d 1 * d 0 * (1 - c) + s * d 2, c + d 1 * d 1 * (1 - c),
        d 1 * d 2 * (1 - c) - s * d 0, 0],
      ![d 2 * d 0 * (1 - c) - s * d 1, d 2 * d 1 * (1 - c) + s * d 0,
        c + d 2 * d 2 * (1 - c), 0],
      ![0, 0, 0, 1]]

/-- The homogeneous rotation's last column is `(0,0,0,1)`. -/
theorem tm_rotation_matrix_col3 (angle : ℝ) (d : V3R) (i : Fin 4) :
    tm_rotation_matrix angle d i 3 = if i = 3 then 1 else 0 := by
  fin_cases i <;> simp [tm_rotation_matrix]

/-- At angle 0 the modelled rotation matrix is the identity, whatever the
axis. -/
theorem tm_rotation_matrix_zero (d : V3R) : tm_rotation_matrix 0 d = 1 := by
  ext i j
  fin_cases i <;> fin_cases j <;>
    simp [tm_rotation_matrix, Matrix.one_apply, Real.cos_zero, Real.sin_zero,
      Matrix.vecHead, Matrix.vecTail]

/-- The Euclidean norm of rows 0-2 of a column (`la.norm` of the 3-slice). -/
noncomputable def colNorm (A : Mat4R) (j : Fin 4) : ℝ :=
  Real.sqrt ((A 0 j) ^ 2 + (A 1 j) ^ 2 + (A 2 j) ^ 2)

/-- `matPose[:3, 3] = orig_pos`: write the saved translation back into rows
0-2 of column 3. -/
def restoreTranslation (A M : Mat4R) : Mat4R :=
  Matrix.of fun i j => if (j : ℕ) = 3 ∧ (i : ℕ) < 3 then M i 3 else A i j

/-- `matPose[:3, c] /= la.norm(matPose[:3, c])` for c = 0, 1, 2. -/
noncomputable def normalizeCols (A : Mat4R) : Mat4R :=
  Matrix.of fun i j => if (j : ℕ) < 3 ∧ (i : ℕ) < 3 then A i j / colNorm A j else A i j

/-- The per-bone update of the CCD loop (ik_solver.py, lines 207-224):
right-multiply the local rotation onto the pose matrix, restore the saved
translation, and renormalize the three basis columns. -/
noncomputable def ikStep (M R : Mat4R) : Mat4R :=
  normalizeCols (restoreTranslation (M * R) M)

/-- C9: in every CCD per-bone step that applies a rotation built from
(localAxis, angle), the updated local pose matrix has a translation column
exactly equal to the one before the update, and (when the rotated basis
columns are nonzero, as they are for any rigid pose) each of the three
rotation-basis columns has unit Euclidean norm (sum of squares 1). -/
theorem ikStep_spec (M : Mat4R) (angle : ℝ) (axis : V3R)
    (hcol : ∀ j : Fin 4, (j : ℕ) < 3 →
      0 < ((M * tm_rotation_matrix angle axis) 0 j) ^ 2 +
        ((M * tm_rotation_matrix angle axis) 1 j) ^ 2 +
        ((M * tm_rotation_matrix angle axis) 2 j) ^ 2) :
    (∀ i, ikStep M (tm_rotation_matrix angle axis) i 3 = M i 3) ∧
    (∀ j : Fin 4, (j : ℕ) < 3 →
      (ikStep M (tm_rotation_matrix angle axis) 0 j) ^ 2 +
        (ikStep M (tm_rotation_matrix angle axis) 1 j) ^ 2 +
        (ikStep M (tm_rotation_matrix angle axis) 2 j) ^ 2 = 1) := by
  set R := tm_rotation_matrix angle axis with hR
  have hmul3 : ∀ i : Fin 4, (M * R) i 3 = M i 3 := by
    intro i
    rw [Matrix.mul_apply, Fin.sum_univ_four, hR]
    rw [tm_rotation_matrix_col3, tm_rotation_matrix_col3, tm_rotation_matrix_col3,
      tm_rotation_matrix_col3]
    simp
  constructor
  · intro i
    unfold ikStep normalizeCols restoreTranslation
    rw [Matrix.of_apply]
    rw [if_neg (by intro h; exact absurd h.1 (by decide))]
    rw [Matrix.of_apply]
    by_cases hi : (i : ℕ) < 3
    · rw [if_pos (show ((3 : Fin 4) : ℕ) = 3 ∧ (i : ℕ) < 3 from ⟨by decide, hi⟩)]
    · rw [if_neg (by intro h; exact hi h.2)]
      exact hmul3 i
  · intro j hj
    have hA : ∀ i : Fin 4, (i : ℕ) < 3 →
        restoreTranslation (M * R) M i j = (M * R) i j := by
      intro i hi
      unfold restoreTranslation
      rw [Matrix.of_apply, if_neg (by intro h; omega)]
    have hA0 := hA 0 (by norm_num)
    have hA1 := hA 1 (by norm_num)
    have hA2 := hA 2 (by norm_num)
    have hS := hcol j hj
    have hnorm : colNorm (restoreTranslation (M * R) M) j =
        Real.sqrt (((M * R) 0 j) ^ 2 + ((M * R) 1 j) ^ 2 + ((M * R) 2 j) ^ 2) := by
      unfold colNorm
      rw [hA0, hA1, hA2]
    have hsq : (Real.sqrt (((M * R) 0 j) ^ 2 + ((M * R) 1 j) ^ 2 +
        ((M * R) 2 j) ^ 2)) ^ 2 =
        ((M * R) 0 j) ^ 2 + ((M * R) 1 j) ^ 2 + ((M * R) 2 j) ^ 2 :=
      Real.sq_sqrt hS.le
    have hne : Real.sqrt (((M * R) 0 j) ^ 2 + ((M * R) 1 j) ^ 2 +
        ((M * R) 2 j) ^ 2) ≠ 0 := by
      intro h0
      rw [h0] at hsq
      rw [← hsq] at hS
      norm_num at hS
    have hstep : ∀ i : Fin 4, (i : ℕ) < 3 → ikStep M R i j =
        (M * R) i j / Real.sqrt (((M * R) 0 j) ^ 2 + ((M * R) 1 j) ^ 2 +
          ((M * R) 2 j) ^ 2) := by
      intro i hi
      unfold ikStep normalizeCols
      rw [Matrix.of_apply, if_pos ⟨hj, hi⟩, hnorm, hA i hi]
    rw [hstep 0 (by norm_num), hstep 1 (by norm_num), hstep 2 (by norm_num)]
    rw [div_pow, div_pow, div_pow, hsq]
    rw [div_add_div_same, div_add_div_same]
    exact div_self (by rw [← hsq] at hS; intro h; rw [h] at hS; norm_num at hS)

/-- Witness for C9: the identity pose with a zero-angle rotation. -/
theorem ikStep_spec_witness :
    (∀ i, ikStep 1 (tm_rotation_matrix 0 (fun _ => 0)) i 3 = (1 : Mat4R) i 3) ∧
    (∀ j : Fin 4, (j : ℕ) < 3 →
      (ikStep 1 (tm_rotation_matrix 0 (fun _ => 0)) 0 j) ^ 2 +
        (ikStep 1 (tm_rotation_matrix 0 (fun _ => 0)) 1 j) ^ 2 +
        (ikStep 1 (tm_rotation_matrix 0 (fun _ => 0)) 2 j) ^ 2 = 1) :=
  ikStep_spec 1 0 (fun _ => 0)
    (by intro j hj
        rw [tm_rotation_matrix_zero, mul_one]
        fin_cases j <;> simp_all [Matrix.one_apply])

/-! ## Landmark pose transfer (`PoseTransfer.apply_pose`, pose_transfer.py) -/

/-- 3-vector dot product. -/
def dot3 (a b : V3R) : ℝ := a 0 * b 0 + a 1 * b 1 + a 2 * b 2

/-- 3-vector cross product. -/
def cross3 (a b : V3R) : V3R :=
  ![a 1 * b 2 - a 2 * b 1, a 2 * b 0 - a 0 * b 2, a 0 * b 1 - a 1 * b 0]

/-- Euclidean length of a 3-vector. -/
noncomputable def magnitudeR (v : V3R) : ℝ :=
  Real.sqrt (v 0 ^ 2 + v 1 ^ 2 + v 2 ^ 2)

/-- Modelled from the spec: `matrix.normalize` — divide a vector by its
Euclidean length (the `matrix` module is imported by pose_transfer.py but
absent from the source tree). -/
noncomputable def mnormalize (v : V3R) : V3R := fun i => v i / magnitudeR v

/-- Modelled from the spec: `matrix.rotate(angle_deg, axis)` — rotation by
the given angle in degrees about the axis. -/
noncomputable def mrotate (deg : ℝ) (axis : V3R) : Mat4R :=
  tm_rotation_matrix (deg * Real.pi / 180) axis

/-- Modelled from the spec: `matrix.rotx(angle_deg)` — rotation about the
world X axis. -/
noncomputable def mrotx (deg : ℝ) : Mat4R := mrotate deg ![1, 0, 0]

/-- A homogeneous direction (w = 0), as used to transform direction vectors
into a bone's local space. -/
def homR0 (v : V3R) : Fin 4 → ℝ := ![v 0, v 1, v 2, 0]

/-- Drop the homogeneous coordinate. -/
def xyzR (v : Fin 4 → ℝ) : V3R := ![v 0, v 1, v 2]

/-- The per-bone rest data read by `PoseTransfer.apply_pose`. -/
structure PTBone where
  name : String
  headPos : V3R
  tailPos : V3R
  matRestGlobal : Mat4R
  matRestRelative : Mat4R

/-- A skeleton's fixed part, in breadth-first arena form, for pose
transfer. -/
structure PTSkel (n : ℕ) where
  bones : Fin n → PTBone
  parent : Fin n → Option (Fin n)
  hpar : ∀ i j, parent i = some j → (j : ℕ) < (i : ℕ)

/-- `bone.update()` for one bone: recompute its cached global pose matrix
from its parent's cached global (or from the rest-relative matrix at a
root). -/
def ptUpdateBone {n : ℕ} (F : PTSkel n) (pose global : Fin n → Mat4R)
    (i : Fin n) : Mat4R :=
  match F.parent i with
  | none => (F.bones i).matRestRelative * pose i
  | some p => global p * ((F.bones i).matRestRelative * pose i)

/-- The reset loop of `apply_pose` (pose_transfer.py, lines 86-88) over the
first `k` bones, in breadth-first order: set each local pose to the
identity, then refresh that bone's cached global matrix. -/
def ptResetAux {n : ℕ} (F : PTSkel n) :
    ℕ → ((Fin n → Mat4R) × (Fin n → Mat4R)) → ((Fin n → Mat4R) × (Fin n → Mat4R))
  | 0, st => st
  | k+1, st =>
    if h : k < n then
      (Function.update (ptResetAux F k st).1 ⟨k, h⟩ 1,
       Function.update (ptResetAux F k st).2 ⟨k, h⟩
         (ptUpdateBone F (Function.update (ptResetAux F k st).1 ⟨k, h⟩ 1)
           (ptResetAux F k st).2 ⟨k, h⟩))
    else ptResetAux F k st

/-- The full reset pass over all bones. -/
def ptReset {n : ℕ} (F : PTSkel n)
    (st : (Fin n → Mat4R) × (Fin n → Mat4R)) : (Fin n → Mat4R) × (Fin n → Mat4R) :=
  ptResetAux F n st

/-- The fixed, pre-declared chain list of `PoseTransfer`
(bone name, landmark start, landmark end). -/
def CHAINS : List (String × String × String) :=
  [("upperarm_l", "r_shoulder", "r_elbow"), ("lowerarm_l", "r_elbow", "r_wrist"),
   ("upperarm_r", "l_shoulder", "l_elbow"), ("lowerarm_r", "l_elbow", "l_wrist"),
   ("thigh_l", "r_hip", "r_knee"), ("calf_l", "r_knee", "r_ankle"),
   ("thigh_r", "l_hip", "l_knee"), ("calf_r", "l_knee", "l_ankle")]

/-- `skeleton.getBone(name)` for the pose-transfer arena. -/
def findPTBone {n : ℕ} (F : PTSkel n) (name : String) : Option (Fin n) :=
  (List.finRange n).find? fun i => (F.bones i).name = name

/-- One chain entry of `apply_pose` (pose_transfer.py, lines 97-220):
skip on a missing landmark or bone; otherwise flip the landmark direction's
Y sign, transform the target and rest directions into the bone's local
space through the inverse pre-pose matrix, build the single alignment
rotation (with the colinear and anti-parallel fallbacks), assign it as the
bone's local pose and refresh the bone's cached global matrix. -/
noncomputable def chainStep {n : ℕ} (F : PTSkel n) (op : String → Option V3R)
    (st : (Fin n → Mat4R) × (Fin n → Mat4R)) (c : String × String × String) :
    (Fin n → Mat4R) × (Fin n → Mat4R) :=
  match op c.2.1, op c.2.2 with
  | some pstart, some pend =>
    match findPTBone F c.1 with
    | none => st
    | some i =>
      let vt : V3R := ![pend 0 - pstart 0, -(pend 1 - pstart 1), pend 2 - pstart 2]
      let target_dir := mnormalize vt
      let parent_mat : Mat4R :=
        match F.parent i with
        | some p => st.2 p
        | none => 1
      let pre_pose := parent_mat * (F.bones i).matRestRelative
      let rest_dir := mnormalize fun k => (F.bones i).tailPos k - (F.bones i).headPos k
      let inv_pre := pre_pose⁻¹
      let local_target := mnormalize (xyzR (inv_pre.mulVec (homR0 target_dir)))
      let local_axis := mnormalize (xyzR (inv_pre.mulVec (homR0 rest_dir)))
      let d := dot3 local_axis local_target
      let rot_mat : Mat4R :=
        if 999/1000 < d then 1
        else if d < -(999/1000) then mrotx 180
        else mrotate (Real.arccos d * 180 / Real.pi)
          (mnormalize (cross3 local_axis local_target))
      let pose2 := Function.update st.1 i (rot_mat * 1)
      (pose2, Function.update st.2 i (ptUpdateBone F pose2 st.2 i))
  | _, _ => st

/-- `PoseTransfer.apply_pose` (pose_transfer.py, lines 78-220): reset every
bone's local pose to the identity and refresh the globals, then process the
fixed chain list in order. -/
noncomputable def apply_pose {n : ℕ} (F : PTSkel n)
    (st : (Fin n → Mat4R) × (Fin n → Mat4R)) (op : String → Option V3R) :
    (Fin n → Mat4R) × (Fin n → Mat4R) :=
  CHAINS.foldl (chainStep F op) (ptReset F st)

/-- After the reset pass over the first `k` bones, those bones' local poses
are the identity and their cached globals agree between any two starting
states. -/
theorem ptResetAux_agree {n : ℕ} (F : PTSkel n) (k : ℕ)
    (st1 st2 : (Fin n → Mat4R) × (Fin n → Mat4R)) :
    ∀ j : Fin n, (j : ℕ) < k →
      (ptResetAux F k st1).1 j = 1 ∧
      (ptResetAux F k st1).2 j = (ptResetAux F k st2).2 j ∧
      (ptResetAux F k st2).1 j = 1 := by
  induction k with
  | zero => intro j hj; omega
  | succ k ih =>
    intro j hj
    unfold ptResetAux
    by_cases h : k < n
    · rw [dif_pos h, dif_pos h]
      by_cases hjk : (j : ℕ) = k
      · have hj' : j = ⟨k, h⟩ := Fin.ext hjk
        subst hj'
        dsimp only
        refine ⟨Function.update_same _ _ _, ?_, Function.update_same _ _ _⟩
        rw [Function.update_same, Function.update_same]
        unfold ptUpdateBone
        rw [Function.update_same, Function.update_same]
        cases hp : F.parent (⟨k, h⟩ : Fin n) with
        | none => rfl
        | some p =>
          have hpk : (p : ℕ) < k := by
            have := F.hpar ⟨k, h⟩ p hp
            omega
          dsimp only
          rw [(ih p hpk).2.1]
      · have hne : j ≠ ⟨k, h⟩ := fun hcontra => hjk (by rw [hcontra])
        have hjlt : (j : ℕ) < k := by omega
        obtain ⟨i1, i2, i3⟩ := ih j hjlt
        dsimp only
        refine ⟨?_, ?_, ?_⟩
        · rw [Function.update_noteq hne]
          exact i1
        · rw [Function.update_noteq hne, Function.update_noteq hne]
          exact i2
        · rw [Function.update_noteq hne]
          exact i3
    · rw [dif_neg h, dif_neg h]
      exact ih j (by omega)

/-- The reset pass erases all dependence on the prior mutable state. -/
theorem ptReset_state_independent {n : ℕ} (F : PTSkel n)
    (st1 st2 : (Fin n → Mat4R) × (Fin n → Mat4R)) :
    ptReset F st1 = ptReset F st2 := by
  unfold ptReset
  have h := ptResetAux_agree F n st1 st2
  apply Prod.ext
  · funext j
    rw [(h j j.isLt).1, (h j j.isLt).2.2]
  · funext j
    exact (h j j.isLt).2.1

/-- C10: `PoseTransfer.apply_pose` first resets every bone's local pose to
the identity (refreshing the cached globals), so for a fixed skeleton rest
configuration two calls with the same landmark input produce identical bone
pose (and global) matrices regardless of the local pose matrices the bones
held before each call. -/
theorem apply_pose_prior_state_independent {n : ℕ} (F : PTSkel n)
    (st1 st2 : (Fin n → Mat4R) × (Fin n → Mat4R))
    (op : String → Option V3R) :
    apply_pose F st1 op = apply_pose F st2 op := by
  unfold apply_pose
  rw [ptReset_state_independent F st1 st2]

end VNCCS
